import Mathlib

/-!
Shallow embedding of `src/scripts/ci/aladdin_parser.py` (the Aladdin
example-merging script of azure-cli) and verification of its specification.

Strings are modelled as `List Char`; a file is a list of readline results
(each chunk keeps its trailing newline, the final chunk may lack one).
Python exceptions are modelled with `Except`; the one genuinely
non-terminating loop of `merge` is modelled by a distinguished error value.
-/

/-- Characters of a string literal, the working representation of Python
strings throughout this development. -/
def s2l (s : String) : List Char := s.data

instance {ε α : Type} [DecidableEq ε] [DecidableEq α] : DecidableEq (Except ε α) := fun x y =>
  match x, y with
  | .ok a, .ok b =>
    if h : a = b then isTrue (by rw [h]) else isFalse (fun hh => h (Except.ok.inj hh))
  | .error a, .error b =>
    if h : a = b then isTrue (by rw [h]) else isFalse (fun hh => h (Except.error.inj hh))
  | .ok _, .error _ => isFalse (fun hh => Except.noConfusion hh)
  | .error _, .ok _ => isFalse (fun hh => Except.noConfusion hh)

/-- Whitespace for Python `str.strip()` (ASCII range, which covers the
text this script manipulates). -/
def isPyWs (c : Char) : Bool :=
  c = ' ' || c = '\t' || c = '\n' || c = '\r' || c = '\x0b' || c = '\x0c'

/-- Python `s.strip()`: drop leading and trailing whitespace. -/
def pyStrip (s : List Char) : List Char :=
  ((s.dropWhile isPyWs).reverse.dropWhile isPyWs).reverse

/-- Does `pat` occur as a contiguous sublist of `hay` at some position?
Models Python's `in` on strings and underlies `str.index`. -/
def containsSub (hay pat : List Char) : Bool :=
  match hay with
  | [] => pat.isPrefixOf []
  | _ :: rest => pat.isPrefixOf hay || containsSub rest pat

/-- Position of the first occurrence of `pat` in `hay`: Python `str.index`
(`none` models the `ValueError` it raises when absent). -/
def indexOfSub (hay pat : List Char) : Option Nat :=
  match hay with
  | [] => if pat.isPrefixOf ([] : List Char) then some 0 else none
  | _ :: rest =>
    if pat.isPrefixOf hay then some 0
    else (indexOfSub rest pat).map (· + 1)

/-- Lexicographic comparison of strings by code point, as Python's `<=` on
`str` (and on tuples of them componentwise).  Total and antisymmetric, so
the sorted rearrangement of a list of strings is unique and any correct
sort agrees with Python's `list.sort`. -/
def strLeB : List Char → List Char → Bool
  | [], _ => true
  | _ :: _, [] => false
  | a :: as, b :: bs => if a < b then true else if b < a then false else strLeB as bs

/-! A model of `shlex.split`.

Python's `shlex.split(s)` runs the `shlex` state machine with `posix=True`,
`whitespace_split=True` and comments disabled.  The states below mirror the
reader: between tokens, inside a word, inside single or double quotes, and
just after a backslash (with the state to resume recorded). -/

/-- shlex whitespace characters. -/
def isShWs (c : Char) : Bool := c = ' ' || c = '\t' || c = '\r' || c = '\n'

/-- Reader state of the shlex state machine. -/
inductive ShState where
  | space : ShState
  | word : ShState
  | squote : ShState
  | dquote : ShState
  deriving DecidableEq

/-- Errors raised by `shlex`: unterminated quote, dangling backslash. -/
inductive ShlexErr where
  | noClosingQuote : ShlexErr
  | noEscapedChar : ShlexErr
  deriving DecidableEq

/-- One pass of the shlex reader.  `st` is the current state, `esc` is set
when the previous character was an unprocessed backslash (holding the state
to resume), `tok` the token accumulated so far, `quoted` whether the
current token has passed through a quoted region. -/
def shlexRun : List Char → ShState → Bool → ShState → List Char → Bool →
    Except ShlexErr (List (List Char))
  | [], st, esc, _, tok, quoted =>
    if esc then .error .noEscapedChar
    else match st with
      | .space => .ok (if tok ≠ [] || quoted then [tok] else [])
      | .word => .ok (if tok ≠ [] || quoted then [tok] else [])
      | .squote => .error .noClosingQuote
      | .dquote => .error .noClosingQuote
  | c :: cs, st, esc, escSt, tok, quoted =>
    if esc then
      -- In POSIX shells, inside double quotes only the quote itself or the
      -- escape character may be escaped; otherwise the backslash stays.
      let tok' := if escSt = .dquote ∧ c ≠ '\\' ∧ c ≠ '"'
                  then tok ++ ['\\', c] else tok ++ [c]
      shlexRun cs escSt false .space tok' quoted
    else match st with
      | .space =>
        if isShWs c then
          if tok ≠ [] || quoted then
            (shlexRun cs .space false .space [] false).map (tok :: ·)
          else shlexRun cs .space false .space [] false
        else if c = '\\' then shlexRun cs .word true .word tok quoted
        else if c = '\'' then shlexRun cs .squote false .space tok quoted
        else if c = '"' then shlexRun cs .dquote false .space tok quoted
        else shlexRun cs .word false .space (tok ++ [c]) quoted
      | .word =>
        if isShWs c then
          if tok ≠ [] || quoted then
            (shlexRun cs .space false .space [] false).map (tok :: ·)
          else shlexRun cs .space false .space [] false
        else if c = '\'' then shlexRun cs .squote false .space tok quoted
        else if c = '"' then shlexRun cs .dquote false .space tok quoted
        else if c = '\\' then shlexRun cs .word true .word tok quoted
        else shlexRun cs .word false .space (tok ++ [c]) quoted
      | .squote =>
        if c = '\'' then shlexRun cs .word false .space tok true
        else shlexRun cs .squote false .space (tok ++ [c]) true
      | .dquote =>
        if c = '"' then shlexRun cs .word false .space tok true
        else if c = '\\' then shlexRun cs .dquote true .dquote tok true
        else shlexRun cs .dquote false .space (tok ++ [c]) true

/-- Model of `shlex.split(s)`: POSIX mode with whitespace splitting. -/
def shlexSplit (s : List Char) : Except ShlexErr (List (List Char)) :=
  shlexRun s .space false .space [] false

example : shlexSplit (s2l " --name \"my vm\" --size x") =
    .ok [s2l "--name", s2l "my vm", s2l "--size", s2l "x"] := by decide
example : shlexSplit (s2l " --a\\-b") = .ok [s2l "--a-b"] := by decide
example : shlexSplit (s2l "'") = .error .noClosingQuote := by decide

/-! Data model.

An `ExampleRecord` is one entry of an `examples:` list: `name`, `text`
(a shell-like invocation) and whether a `crafted` key is present
(`write_examples` tests key presence with `'crafted' in ex`). -/

/-- One CLI usage example, as read from YAML. -/
structure ExampleRecord where
  name : List Char
  text : List Char
  crafted : Bool
  deriving DecidableEq

/-- A ParameterSignature: the tuple of flag strings `format_examples` uses
as grouping key. -/
abbrev Sig := List (List Char)

/-- The grouping map of `format_examples`: a `defaultdict(list)` with
insertion-ordered distinct keys, modelled as an association list. -/
abbrev Groups := List (Sig × List ExampleRecord)

/-- All error outcomes of a run of the script.  `hang` is not an
exception: it marks the one input class on which the inner `readline`
loop of `merge` never terminates. -/
inductive RunErr where
  | malformedExample : RunErr
  | shlexError : ShlexErr → RunErr
  | indentError : RunErr
  | regexMismatch : RunErr
  | hang : RunErr
  deriving DecidableEq

/-- Does a token start with `--`?  (`p.startswith('--')`). -/
def isFlagTok (p : List Char) : Bool := (s2l "--").isPrefixOf p

/-- String order used by Python's `list.sort` on the flag strings. -/
def strLe (a b : List Char) : Prop := strLeB a b = true

instance : DecidableRel strLe := fun a b => by
  unfold strLe; infer_instance

/-- The ParameterSignature of one example, as computed inside the loop of
`format_examples`:

    command_line = text[text.index(cmd):]
    parameter_section = command_line[command_line.index(cmd) + len(cmd):]
    parameter_section = shlex.split(parameter_section)
    parameter_names = [p.strip() for p in parameter_section if p.startswith('--')]
    parameter_names.sort()

`str.index` raising `ValueError` is the `malformedExample` outcome.
`list.sort` is stable, but the order is antisymmetric, so the sorted
rearrangement is unique and insertion sort computes the same list. -/
def exampleSig (cmd text : List Char) : Except RunErr Sig :=
  match indexOfSub text cmd with
  | none => .error .malformedExample
  | some i =>
    let commandLine := text.drop i
    match indexOfSub commandLine cmd with
    | none => .error .malformedExample
    | some j =>
      let parameterSection := commandLine.drop (j + cmd.length)
      match shlexSplit parameterSection with
      | .error e => .error (.shlexError e)
      | .ok toks =>
        .ok (List.insertionSort strLe ((toks.filter isFlagTok).map pyStrip))

/-- Appending a value under a key in the `defaultdict(list)`: an existing
key keeps its place and grows its list, a new key is appended. -/
def addToGroup (m : Groups) (k : Sig) (v : ExampleRecord) : Groups :=
  match m with
  | [] => [(k, [v])]
  | (k', vs) :: rest =>
    if k' = k then (k', vs ++ [v]) :: rest else (k', vs) :: addToGroup rest k v

/-- The loop of `format_examples`, threading the grouping map. -/
def formatExamplesAux (cmd : List Char) : List ExampleRecord → Groups → Except RunErr Groups
  | [], m => .ok m
  | e :: es, m =>
    match exampleSig cmd e.text with
    | .error err => .error err
    | .ok s => formatExamplesAux cmd es (addToGroup m s e)

/-- Model of `format_examples(cmd, examples)`. -/
def formatExamples (cmd : List Char) (exs : List ExampleRecord) : Except RunErr Groups :=
  formatExamplesAux cmd exs []

/-- Is `k` a key of the grouping map (`parameter_seq in formatted_cli_examples`)? -/
def hasKeyB (m : Groups) (k : Sig) : Bool := m.any (fun p => decide (p.1 = k))

/-! Indent inference: `calculate_example_yaml_indent`. -/

/-- Index of the first character that is not a space character, as
`re.search(r'[^ ]', s)`; `none` models the `AttributeError` raised by
`.start()` on a failed search. -/
def firstNonSpace (s : List Char) : Option Nat := s.findIdx? (fun c => decide (c ≠ ' '))

/-- The scan `for idx, s in enumerate(raw): if s.strip().startswith('examples'): ... break`. -/
def scanExamplesLine : List (List Char) → Nat → Option (Nat × List Char)
  | [], _ => none
  | s :: rest, i =>
    if (s2l "examples").isPrefixOf (pyStrip s) then some (i, s)
    else scanExamplesLine rest (i + 1)

/-- Model of `calculate_example_yaml_indent(raw_cli_help)`.  `none` stands
for any of the exceptions the Python function can raise (`IndexError` on
`raw[0]` or `raw[idx + 1]`, `AttributeError` on a failed `re.search`). -/
def calculateIndent (raw : List (List Char)) : Option (List Char × List Char) :=
  match raw with
  | [] => none
  | first :: _ =>
    let (idx, key) :=
      match scanExamplesLine raw 0 with
      | some (i, s) => (i, s)
      | none => (0, first)
    match firstNonSpace key with
    | none => none
    | some w =>
      let preceding := key.take w
      if containsSub key (s2l "examples") then
        match raw[idx + 1]? with
        | none => none
        | some key2 =>
          match firstNonSpace key2 with
          | none => none
          | some w2 => some (preceding, key2.take w2)
      else
        some (preceding, preceding ++ s2l "  ")

/-! The formatter: `write_examples`. -/

/-- Python `parameters.replace('\\', '\\\\')`: double every backslash. -/
def pyReplaceBackslash : List Char → List Char
  | [] => []
  | c :: cs =>
    if c = '\\' then '\\' :: '\\' :: pyReplaceBackslash cs
    else c :: pyReplaceBackslash cs

/-- Python `s.split(' ')` with an explicit separator: consecutive spaces
produce empty fields, the result is never empty. -/
def splitOnSpace : List Char → List (List Char)
  | [] => [[]]
  | c :: cs =>
    if c = ' ' then [] :: splitOnSpace cs
    else
      match splitOnSpace cs with
      | t :: ts => (c :: t) :: ts
      | [] => [[c]]

/-- One fragment of wrap mode: a flag token carries the continuation
marker and a fresh indented line, a value token stays on the current
line. -/
def wrapFrag (inner p : List Char) : List Char :=
  if isFlagTok p then s2l " \\\\\n" ++ inner ++ s2l "      " ++ p else ' ' :: p

/-- The fragments `write_examples` emits after `'az {cmd}'` for the
parameter part of one invocation: a single fragment `' ' + parameters`
below the threshold, otherwise one fragment per space-separated token. -/
def invocationBody (inner parameters : List Char) : List (List Char) :=
  if parameters.length + inner.length < 80 then
    [' ' :: parameters]
  else
    (splitOnSpace parameters).map (wrapFrag inner)

/-- Model of the body of `write_examples` for a single example: the list
of fragments appended to `buffer`.  The `str.index` call there can in
principle fail (`ValueError`), hence the `Except`. -/
def writeExampleFrags (cmd inner : List Char) (ex : ExampleRecord) :
    Except RunErr (List (List Char)) :=
  let nameFrag := inner ++ s2l "- name: " ++ ex.name ++ s2l "\n"
  let textFrag := inner ++ s2l "  text: |\n"
  let cmdFrag := inner ++ s2l "      az " ++ cmd
  let doubled := pyReplaceBackslash ex.text
  match indexOfSub doubled cmd with
  | none => .error .malformedExample
  | some i =>
    let parameters := pyStrip (doubled.drop (i + cmd.length))
    .ok ([nameFrag, textFrag, cmdFrag] ++ invocationBody inner parameters ++
         (if ex.crafted then [s2l "\n" ++ inner ++ s2l "  crafted: true"] else []) ++
         [s2l "\n"])

/-- The `for ex in examples` loop of `write_examples` over one group. -/
def writeExamplesAll (cmd inner : List Char) : List ExampleRecord → Except RunErr (List (List Char))
  | [] => .ok []
  | ex :: rest =>
    match writeExampleFrags cmd inner ex with
    | .error e => .error e
    | .ok f =>
      match writeExamplesAll cmd inner rest with
      | .error e => .error e
      | .ok r => .ok (f ++ r)

example : invocationBody (s2l "    ") (s2l "--a b") = [s2l " --a b"] := by decide

/-! The merge of one help block: `merge_examples`. -/

/-- The `for parameter_seq, examples in formatted_aladdin_examples.items()`
loop of `merge_examples`: skip groups whose signature is already a key of
the CLI grouping, write an `examples:` key once when the CLI help had no
examples at all, then render each surviving group. -/
def appendLoop (cmd preceding inner : List Char) (fmtCli : Groups)
    (alNonempty cliEmpty : Bool) :
    Groups → Bool → List (List Char) → Except RunErr (List (List Char))
  | [], _, buf => .ok buf
  | (sig, exs) :: rest, keyWritten, buf =>
    if hasKeyB fmtCli sig then
      appendLoop cmd preceding inner fmtCli alNonempty cliEmpty rest keyWritten buf
    else
      match writeExamplesAll cmd inner exs with
      | .error e => .error e
      | .ok frags =>
        appendLoop cmd preceding inner fmtCli alNonempty cliEmpty rest
          (if keyWritten = false ∧ alNonempty = true ∧ cliEmpty = true then true else keyWritten)
          ((if keyWritten = false ∧ alNonempty = true ∧ cliEmpty = true
            then buf ++ [preceding ++ s2l "examples:\n"] else buf) ++ frags)

/-- Model of `merge_examples(cmd, raw_cli_help, aladdin_help, buffer)`.
`cliExamples` stands for `yaml.load(...).get('examples', None)` — the YAML
library call is the boundary of the embedding — and `aladdinExamples` for
`aladdin_help.get('examples')`.  Python's `cli_examples if cli_examples
else []` maps both `None` and `[]` to `[]`. -/
def mergeExamples (cmd : List Char) (rawCliHelp : List (List Char))
    (cliExamples aladdinExamples : Option (List ExampleRecord))
    (buffer : List (List Char)) : Except RunErr (List (List Char)) :=
  match aladdinExamples with
  | none => .ok buffer
  | some alExs =>
    let cliExs := match cliExamples with
                  | none => []
                  | some l => l
    match formatExamples cmd cliExs with
    | .error e => .error e
    | .ok fmtCli =>
      match formatExamples cmd alExs with
      | .error e => .error e
      | .ok fmtAl =>
        match calculateIndent rawCliHelp with
        | none => .error .indentError
        | some (preceding, inner) =>
          appendLoop cmd preceding inner fmtCli (decide (fmtAl ≠ []))
            (decide (fmtCli = [])) fmtAl false buffer

/-- The groups of generated examples that survive the duplicate check:
those whose signature is not a key of the CLI grouping. -/
def newGroups (fmtCli fmtAl : Groups) : Groups :=
  fmtAl.filter (fun p => !(hasKeyB fmtCli p.1))

/-- Rendering of a list of groups, group by group. -/
def renderGroups (cmd inner : List Char) : Groups → Except RunErr (List (List Char))
  | [] => .ok []
  | (_, exs) :: rest =>
    match writeExamplesAll cmd inner exs with
    | .error e => .error e
    | .ok f =>
      match renderGroups cmd inner rest with
      | .error e => .error e
      | .ok r => .ok (f ++ r)

/-! The file processor: `merge`. -/

/-- Does a line start a help block (`line.startswith("helps['")`)? -/
def startsHelps (l : List Char) : Bool := (s2l "helps['").isPrefixOf l

/-- Does a line end the block body (`line.endswith('\"\"\"\n')`)? -/
def endsMarker (l : List Char) : Bool := (s2l "\"\"\"\n").isSuffixOf l

/-- The lazy group of `re.search(r"helps\['(.*?)'\] = \"\"\"\n", line)`
once `helps['` has matched: the shortest run of non-newline characters
followed by `'] = \"\"\"` and a newline. -/
def captureAfter : List Char → Option (List Char)
  | [] => none
  | c :: cs =>
    if (s2l "'] = \"\"\"\n").isPrefixOf (c :: cs) then some []
    else if c = '\n' then none
    else (captureAfter cs).map (c :: ·)

/-- The full `re.search` over the line: try every start position from the
left, at each one require the literal `helps['` and then the lazy capture. -/
def helpsCapture : List Char → Option (List Char)
  | [] => none
  | c :: cs =>
    match (if (s2l "helps['").isPrefixOf (c :: cs) then captureAfter ((c :: cs).drop 7) else none) with
    | some cap => some cap
    | none => helpsCapture cs

/-- Control state of `merge`'s line loop: at top level, or inside a help
block with the command name and the body lines read so far. -/
inductive MergeMode where
  | top : MergeMode
  | inBlock : List Char → List (List Char) → MergeMode

/-- Model of the loop body of `merge(aladdin_generated_helps, help_module)`
over the readline results of one documentation file.

`gen cmd` models `aladdin_generated_helps` lookup: `none` when `cmd` is
absent, otherwise `some` of the `.get('examples')` of its entry.  `parse`
models `next(yaml.load_all(''.join(body))).get('examples', None)` — the
YAML boundary.  At end of file inside a block the Python `while` loop
spins forever on `readline() == ''`; that outcome is `RunErr.hang`. -/
def mergeLines (gen : List Char → Option (Option (List ExampleRecord)))
    (parse : List (List Char) → Option (List ExampleRecord)) :
    List (List Char) → MergeMode → Except RunErr (List (List Char))
  | [], .top => .ok []
  | [], .inBlock _ _ => .error .hang
  | l :: ls, .top =>
    if startsHelps l then
      match helpsCapture l with
      | none => .error .regexMismatch
      | some cap => (mergeLines gen parse ls (.inBlock (pyStrip cap) [])).map (l :: ·)
    else (mergeLines gen parse ls .top).map (l :: ·)
  | l :: ls, .inBlock cmd body =>
    if endsMarker l then
      match (match gen cmd with
             | none => (.ok [] : Except RunErr (List (List Char)))
             | some alExs => mergeExamples cmd body (parse body) alExs []) with
      | .error e => .error e
      | .ok appended =>
        match mergeLines gen parse ls .top with
        | .error e => .error e
        | .ok out => .ok (body ++ appended ++ [l] ++ out)
    else mergeLines gen parse ls (.inBlock cmd (body ++ [l]))

/-- Model of `merge` on one file, presented as its readline results. -/
def mergeFile (gen : List Char → Option (Option (List ExampleRecord)))
    (parse : List (List Char) → Option (List ExampleRecord))
    (lines : List (List Char)) : Except RunErr (List (List Char)) :=
  mergeLines gen parse lines .top

/-! The abstract help block.

Modelled from the spec: a `CommandHelpBlock` "contains zero or more
existing ExampleRecords plus arbitrary untouched documentation text", is
"read from file, optionally amended with new ExampleRecords from the
external source, written back verbatim otherwise".  The YAML parse that
recovers the records from the text lives outside the repository (the
`yaml` library), so the block carries both the raw lines and the parsed
`examples` entry, and re-reading the written file recovers the appended
records unchanged. -/

/-- Chunk a character stream into readline results: every chunk ends with
a newline except possibly the last. -/
def splitAfterNL : List Char → List (List Char)
  | [] => []
  | c :: cs =>
    if c = '\n' then ['\n'] :: splitAfterNL cs
    else
      match splitAfterNL cs with
      | t :: ts => (c :: t) :: ts
      | [] => [[c]]

/-- Modelled from the spec: a documentation block together with the result
of YAML-parsing its `examples` key. -/
structure HelpBlock where
  lines : List (List Char)
  examples : Option (List ExampleRecord)
  deriving DecidableEq

/-- The `examples` entry as `merge_examples` uses it (`None` and `[]`
both give `[]`). -/
def cliListOf : Option (List ExampleRecord) → List ExampleRecord
  | none => []
  | some l => l

/-- Modelled from the spec: `Merge` on one command block (§4.4) — the raw
text grows by exactly the fragments `merge_examples` appends to the
buffer, and the parsed view of the written file carries the appended
records after the existing ones.  The lines of the output block are the
readline results of the written bytes. -/
def mergeBlock (cmd : List Char) (b : HelpBlock) (gen : Option (List ExampleRecord)) :
    Except RunErr HelpBlock :=
  match gen with
  | none => .ok ⟨splitAfterNL b.lines.flatten, b.examples⟩
  | some alExs =>
    match mergeExamples cmd b.lines b.examples (some alExs) [] with
    | .error e => .error e
    | .ok frags =>
      match formatExamples cmd (cliListOf b.examples), formatExamples cmd alExs with
      | .ok fmtCli, .ok fmtAl =>
        let newRecs := ((newGroups fmtCli fmtAl).map Prod.snd).flatten
        .ok ⟨splitAfterNL (b.lines ++ frags).flatten,
             if newRecs = [] then b.examples
             else some (cliListOf b.examples ++ newRecs)⟩
      | .error e, _ => .error e
      | _, .error e => .error e

example : helpsCapture (s2l "helps['vm create'] = \"\"\"\n") = some (s2l "vm create") := by decide
example : mergeFile (fun _ => none) (fun _ => none) [s2l "a\n", s2l "b\n"] =
    .ok [s2l "a\n", s2l "b\n"] := by decide

/-! Generic lemmas about the string helpers. -/

theorem containsSub_isInfix_iff (hay pat : List Char) :
    containsSub hay pat = true ↔ pat <:+: hay := by
  induction hay with
  | nil => simp [containsSub, List.isPrefixOf_iff_prefix]
  | cons c rest ih =>
    simp [containsSub, List.isPrefixOf_iff_prefix, ih, List.infix_cons_iff]

theorem pyStrip_isInfix (s : List Char) : pyStrip s <:+: s := by
  unfold pyStrip
  have h1 : s.dropWhile isPyWs <:+ s := List.dropWhile_suffix isPyWs
  have h2 : ((s.dropWhile isPyWs).reverse.dropWhile isPyWs).reverse <+: s.dropWhile isPyWs := by
    have := List.dropWhile_suffix (l := (s.dropWhile isPyWs).reverse) isPyWs
    rw [← List.reverse_prefix] at this
    simpa using this
  exact h2.isInfix.trans h1.isInfix

theorem startsExamples_contains (s : List Char)
    (h : (s2l "examples").isPrefixOf (pyStrip s) = true) :
    containsSub s (s2l "examples") = true := by
  rw [containsSub_isInfix_iff]
  rw [List.isPrefixOf_iff_prefix] at h
  exact h.isInfix.trans (pyStrip_isInfix s)

/-! Claim C4: indent inference. -/

/-- The indentation of a line: its maximal run of leading spaces, defined
when the line has a character that is not a space. -/
def indentOf (s : List Char) : Option (List Char) :=
  (firstNonSpace s).map (fun w => s.take w)

/-- Written from the spec's words (§4.3), amended: scan the lines for one
beginning, after whitespace, with `examples`; if found, that line's
indentation is the outer indent and the following line's indentation the
inner indent; if not found, the outer indent is the first line's
indentation, and the inner indent is the second line's indentation when
the first line contains `examples` as a substring, and the outer indent
plus two spaces otherwise. -/
def specIndentInference (raw : List (List Char)) : Option (List Char × List Char) :=
  match raw with
  | [] => none
  | first :: _ =>
    match scanExamplesLine raw 0 with
    | some (i, line) => do
        let outer ← indentOf line
        let next ← raw[i + 1]?
        let inner ← indentOf next
        pure (outer, inner)
    | none => do
        let outer ← indentOf first
        if containsSub first (s2l "examples") then
          let next ← raw[1]?
          let inner ← indentOf next
          pure (outer, inner)
        else
          pure (outer, outer ++ s2l "  ")

theorem scanExamplesLine_mem_startsWith :
    ∀ (raw : List (List Char)) (n i : Nat) (s : List Char),
      scanExamplesLine raw n = some (i, s) →
      (s2l "examples").isPrefixOf (pyStrip s) = true := by
  intro raw
  induction raw with
  | nil => intro n i s h; simp [scanExamplesLine] at h
  | cons l rest ih =>
    intro n i s h
    by_cases hl : (s2l "examples").isPrefixOf (pyStrip l) = true
    · simp [scanExamplesLine, hl] at h
      rw [← h.2]; exact hl
    · simp [scanExamplesLine, hl] at h
      exact ih (n + 1) i s h

/-- C4, amended: `calculate_example_yaml_indent` implements the spec's scan,
except that the fallback "first line's indent plus two spaces" applies only
when the first line does not contain `examples` as a substring; when it
does (without any line starting with `examples` after stripping), the inner
indent is read from the second line instead. -/
theorem C4_indent_inference (raw : List (List Char)) :
    specIndentInference raw = calculateIndent raw := by
  match raw with
  | [] => rfl
  | first :: rest =>
    unfold specIndentInference calculateIndent
    cases hscan : scanExamplesLine (first :: rest) 0 with
    | some p =>
      obtain ⟨i, line⟩ := p
      have hcont : containsSub line (s2l "examples") = true :=
        startsExamples_contains line (scanExamplesLine_mem_startsWith _ 0 i line hscan)
      simp only [hscan, indentOf, hcont, if_true]
      cases hw : firstNonSpace line with
      | none => simp [hw]
      | some w =>
        simp only [hw, Option.map_some]
        cases hnext : (first :: rest)[i+1]? with
        | none => simp [hnext]
        | some next =>
          simp only [hnext]
          cases hw2 : firstNonSpace next <;> simp [hw2]
    | none =>
      simp only [hscan]
      cases hw : firstNonSpace first with
      | none => simp [indentOf, hw]
      | some w =>
        simp only [indentOf, hw, Option.map_some]
        by_cases hc : containsSub first (s2l "examples") = true
        · simp only [hc, if_true]
          cases hnext : (first :: rest)[0+1]? with
          | none => simp [hnext]
          | some next =>
            simp only [hnext]
            cases hw2 : firstNonSpace next <;> simp [hw2]
        · simp [hc]

/-- C4, counterexample: on the block `["a examples\n", "    x\n"]` no line
begins (after whitespace) with `examples`, so the claim predicts the
result `(firstLineIndent, firstLineIndent + 2 spaces) = ("", "  ")`; the
code returns `("", "    ")`, taking the inner indent from the second line
because the first line contains `examples` as a substring. -/
theorem C4_counterexample :
    (∀ l ∈ [s2l "a examples\n", s2l "    x\n"],
        (s2l "examples").isPrefixOf (pyStrip l) = false) ∧
    calculateIndent [s2l "a examples\n", s2l "    x\n"] = some (s2l "", s2l "    ") ∧
    some (s2l "", s2l "    ") ≠ some (s2l "", s2l "" ++ s2l "  ") := by
  refine ⟨by decide, by decide, by decide⟩

/-! Claim C10: partiality of `calculate_example_yaml_indent`. -/

/-- The exact raise condition of `calculate_example_yaml_indent`, written
out: the block is empty; or the line chosen by the scan (the first line
when no line starts, after stripping, with `examples`) consists only of
space characters; or that chosen line contains `examples` as a substring
while the line after it is missing or consists only of space characters. -/
def calcRaises (raw : List (List Char)) : Bool :=
  match raw with
  | [] => true
  | first :: _ =>
    let (idx, key) :=
      match scanExamplesLine raw 0 with
      | some (i, s) => (i, s)
      | none => (0, first)
    (firstNonSpace key).isNone ||
    (containsSub key (s2l "examples") &&
      (match raw[idx + 1]? with
       | none => true
       | some key2 => (firstNonSpace key2).isNone))

/-- C10, amended: `calculate_example_yaml_indent` raises exactly when the
block is empty, when the chosen line is all spaces, or when the chosen
line contains `examples` as a substring but the following line is missing
or all spaces — whether or not any line starts with `examples`. -/
theorem C10_calculate_indent_raises (raw : List (List Char)) :
    calculateIndent raw = none ↔ calcRaises raw = true := by
  match raw with
  | [] => simp [calculateIndent, calcRaises]
  | first :: rest =>
    unfold calculateIndent calcRaises
    cases hscan : scanExamplesLine (first :: rest) 0 with
    | some p =>
      obtain ⟨i, line⟩ := p
      have hcont : containsSub line (s2l "examples") = true :=
        startsExamples_contains line (scanExamplesLine_mem_startsWith _ 0 i line hscan)
      simp only [hscan, hcont]
      cases hw : firstNonSpace line with
      | none => simp [hw]
      | some w =>
        simp only [hw, if_true]
        cases hnext : (first :: rest)[i+1]? with
        | none => simp [hnext]
        | some next =>
          simp only [hnext]
          cases hw2 : firstNonSpace next <;> simp [hw2]
    | none =>
      simp only [hscan]
      cases hw : firstNonSpace first with
      | none => simp [hw]
      | some w =>
        simp only [hw]
        by_cases hc : containsSub first (s2l "examples") = true
        · simp only [hc, if_true]
          cases hnext : (first :: rest)[0+1]? with
          | none => simp [hnext]
          | some next =>
            simp only [hnext]
            cases hw2 : firstNonSpace next <;> simp [hw2]
        · simp [hc]

/-- C10, counterexample: on the one-line block `["see examples\n"]` none of
the claim's raise conditions holds — the block is nonempty, every line has
a non-space character, and no line (stripped or not) starts with
`examples`, so in particular no such line is the last line — yet the
function raises (`raw[idx + 1]` is out of range because the first line
contains `examples` as a substring). -/
theorem C10_counterexample :
    [s2l "see examples\n"] ≠ ([] : List (List Char)) ∧
    (∀ l ∈ [s2l "see examples\n"], (firstNonSpace l).isSome = true) ∧
    (∀ l ∈ [s2l "see examples\n"],
        (s2l "examples").isPrefixOf (pyStrip l) = false ∧
        (s2l "examples").isPrefixOf l = false) ∧
    calculateIndent [s2l "see examples\n"] = none := by
  refine ⟨by decide, by decide, by decide, by decide⟩

/-! Claim C5: the ParameterSignature. -/

theorem strLeB_refl (a : List Char) : strLeB a a = true := by
  induction a with
  | nil => rfl
  | cons x as ih => simp [strLeB, ih]

theorem strLeB_trans :
    ∀ a b c : List Char, strLeB a b = true → strLeB b c = true → strLeB a c = true := by
  intro a
  induction a with
  | nil => intro b c _ _; rfl
  | cons x as ih =>
    intro b c hab hbc
    match b, c with
    | [], _ => simp [strLeB] at hab
    | _ :: _, [] => simp [strLeB] at hbc
    | y :: bs, z :: cs =>
      rcases lt_trichotomy x y with hxy | hxy | hxy
      · rcases lt_trichotomy y z with hyz | hyz | hyz
        · simp [strLeB, hxy.trans hyz]
        · subst hyz; simp [strLeB, hxy]
        · rw [strLeB] at hbc
          simp [lt_asymm hyz, hyz] at hbc
      · subst hxy
        rw [strLeB] at hab
        simp at hab
        rcases lt_trichotomy x z with hxz | hxz | hxz
        · simp [strLeB, hxz]
        · subst hxz
          rw [strLeB] at hbc ⊢
          simp at hbc ⊢
          exact ih bs cs hab hbc
        · rw [strLeB] at hbc
          simp [lt_asymm hxz, hxz] at hbc
      · rw [strLeB] at hab
        simp [lt_asymm hxy, hxy] at hab

theorem strLeB_total (a : List Char) : ∀ b, strLeB a b = true ∨ strLeB b a = true := by
  induction a with
  | nil => intro b; left; rfl
  | cons x as ih =>
    intro b
    match b with
    | [] => right; rfl
    | y :: bs =>
      rcases lt_trichotomy x y with hxy | hxy | hxy
      · left; simp [strLeB, hxy]
      · subst hxy
        rcases ih bs with h | h
        · left; rw [strLeB]; simp [h]
        · right; rw [strLeB]; simp [h]
      · right; simp [strLeB, hxy]

instance : IsTrans (List Char) strLe := ⟨fun a b c => strLeB_trans a b c⟩

instance : IsTotal (List Char) strLe := ⟨fun a b => strLeB_total a b⟩

theorem isPrefixOf_indexOfSub_zero (l pat : List Char)
    (h : pat.isPrefixOf l = true) : indexOfSub l pat = some 0 := by
  match l with
  | [] =>
    have : pat = [] := by
      rw [List.isPrefixOf_iff_prefix] at h
      simpa using h
    simp [indexOfSub, this, List.isPrefixOf]
  | c :: rest => simp [indexOfSub, h]

theorem indexOfSub_drop (hay pat : List Char) :
    ∀ i, indexOfSub hay pat = some i → pat.isPrefixOf (hay.drop i) = true := by
  induction hay with
  | nil =>
    intro i h
    unfold indexOfSub at h
    by_cases hp : pat.isPrefixOf ([] : List Char) = true
    · simp [hp] at h; rw [← h]; simpa using hp
    · simp [hp] at h
  | cons c rest ih =>
    intro i h
    unfold indexOfSub at h
    by_cases hp : pat.isPrefixOf (c :: rest) = true
    · simp [hp] at h; rw [← h]; simpa using hp
    · simp [hp] at h
      obtain ⟨j, hj, hji⟩ := h
      rw [← hji]
      simpa using ih j hj

/-- C5, amended: the ParameterSignature that `format_examples` computes is
the lexicographically sorted rearrangement of the flag tokens (each
stripped) appearing after the first occurrence of the command prefix,
split on shell-word boundaries honoring quoting — with multiplicity: a
flag used twice appears twice, the tokens are not made unique. -/
theorem C5_signature (cmd text : List Char) (s : Sig)
    (h : exampleSig cmd text = .ok s) :
    ∃ i toks,
      indexOfSub text cmd = some i ∧
      shlexSplit ((text.drop i).drop cmd.length) = .ok toks ∧
      List.Sorted strLe s ∧
      s.Perm ((toks.filter isFlagTok).map pyStrip) := by
  unfold exampleSig at h
  cases hidx : indexOfSub text cmd with
  | none => rw [hidx] at h; exact absurd h (by simp)
  | some i =>
    rw [hidx] at h
    have hpre := indexOfSub_drop text cmd i hidx
    simp only [isPrefixOf_indexOfSub_zero _ _ hpre, Nat.zero_add] at h
    cases hsh : shlexSplit ((text.drop i).drop cmd.length) with
    | error e => rw [hsh] at h; exact absurd h (by simp)
    | ok toks =>
      rw [hsh] at h
      simp only [Except.ok.injEq] at h
      refine ⟨i, toks, rfl, hsh, ?_, ?_⟩
      · rw [← h]; exact List.sorted_insertionSort strLe _
      · rw [← h]; exact List.perm_insertionSort strLe _

/-- C5, counterexample: the signature keeps duplicate flags.  For command
`vm` and text `az vm --a --a` the computed signature is
`("--a", "--a")`, which is not a sequence of unique flag tokens. -/
theorem C5_counterexample :
    exampleSig (s2l "vm") (s2l "az vm --a --a") = .ok [s2l "--a", s2l "--a"] ∧
    ¬ ([s2l "--a", s2l "--a"] : List (List Char)).Nodup := by
  refine ⟨by decide, by decide⟩

/-- Witness for `C5_signature` at a concrete record. -/
theorem C5_signature_witness :
    ∃ i toks,
      indexOfSub (s2l "az vm --b --a") (s2l "vm") = some i ∧
      shlexSplit (((s2l "az vm --b --a").drop i).drop (s2l "vm").length) = .ok toks ∧
      List.Sorted strLe [s2l "--a", s2l "--b"] ∧
      List.Perm [s2l "--a", s2l "--b"] ((toks.filter isFlagTok).map pyStrip) :=
  C5_signature (s2l "vm") (s2l "az vm --b --a") [s2l "--a", s2l "--b"] (by decide)

/-! Claim C3: the 80-column wrap threshold. -/

theorem mem_splitOnSpace_sub :
    ∀ (s t : List Char), t ∈ splitOnSpace s → ∀ c ∈ t, c ∈ s := by
  intro s
  induction s with
  | nil => intro t ht c hc; simp [splitOnSpace] at ht; subst ht; simp at hc
  | cons x xs ih =>
    intro t ht c hc
    unfold splitOnSpace at ht
    by_cases hx : x = ' '
    · simp [hx] at ht
      rcases ht with ht | ht
      · subst ht; simp at hc
      · subst hx; exact List.mem_cons_of_mem _ (ih t ht c hc)
    · simp [hx] at ht
      cases hsp : splitOnSpace xs with
      | nil => rw [hsp] at ht; simp at ht; subst ht
               simp at hc; simp [hc]
      | cons u us =>
        rw [hsp] at ht
        simp at ht
        rcases ht with ht | ht
        · subst ht
          rcases List.mem_cons.mp hc with hc | hc
          · simp [hc]
          · exact List.mem_cons_of_mem _ (ih u (by rw [hsp]; exact List.mem_cons_self u us) c hc)
        · exact List.mem_cons_of_mem _ (ih t (by rw [hsp]; exact List.mem_cons_of_mem _ ht) c hc)

/-- C3, amended: the formatter enters wrap mode exactly when
`len(parameters) + len(example_inner_indent) ≥ 80` — the threshold counts
only the parameter string and the inner indentation, not the `az <cmd>`
line prefix — and in wrap mode it emits exactly one continuation break per
flag token, so the invocation stays on one physical line below the
threshold and also above it when no token is a flag. -/
theorem C3_wrap_threshold (inner parameters : List Char)
    (hp : '\n' ∉ parameters) (hi : '\n' ∉ inner) :
    ((invocationBody inner parameters).flatten).count '\n' =
      if parameters.length + inner.length < 80 then 0
      else (splitOnSpace parameters).countP isFlagTok := by
  unfold invocationBody
  by_cases hlt : parameters.length + inner.length < 80
  · simp only [hlt, if_true]
    simp [List.count_eq_zero]
    intro hmem
    exact hp hmem
  · simp only [hlt, if_false]
    have hsub : ∀ t ∈ splitOnSpace parameters, '\n' ∉ t := by
      intro t ht hc
      exact hp (mem_splitOnSpace_sub parameters t ht '\n' hc)
    generalize hts : splitOnSpace parameters = ts at hsub ⊢
    clear hts hlt hp
    induction ts with
    | nil => simp
    | cons t ts ih =>
      have hnt : '\n' ∉ t := hsub t (List.mem_cons_self t ts)
      have hrest := ih (fun u hu => hsub u (List.mem_cons_of_mem _ hu))
      have hct : List.count '\n' t = 0 := List.count_eq_zero.mpr hnt
      have hci : List.count '\n' inner = 0 := List.count_eq_zero.mpr hi
      have h2 : List.count '\n' (s2l " \\\\\n") = 1 := by decide
      have h3 : List.count '\n' (s2l "      ") = 0 := by decide
      by_cases hf : isFlagTok t = true
      · simp only [List.map_cons, List.flatten_cons, List.count_append, List.countP_cons,
                   wrapFrag, hf, if_true, eq_self_iff_true, hrest, hct, hci, h2, h3]
        omega
      · simp only [List.map_cons, List.flatten_cons, List.count_append, List.countP_cons,
                   wrapFrag, hf, if_false, List.count_cons, hrest, hct, hci]
        simp [hct]

/-- Witness for `C3_wrap_threshold` at concrete short and long inputs. -/
theorem C3_wrap_threshold_witness :
    (((invocationBody (s2l "    ") (s2l "--a b")).flatten).count '\n' =
      if (s2l "--a b").length + (s2l "    ").length < 80 then 0
      else (splitOnSpace (s2l "--a b")).countP isFlagTok) ∧
    (((invocationBody (s2l "") (s2l ("--a " ++ String.mk (List.replicate 80 'x')))).flatten).count '\n' =
      if (s2l ("--a " ++ String.mk (List.replicate 80 'x'))).length + (s2l "").length < 80 then 0
      else (splitOnSpace (s2l ("--a " ++ String.mk (List.replicate 80 'x')))).countP isFlagTok) :=
  ⟨C3_wrap_threshold (s2l "    ") (s2l "--a b") (by decide) (by decide),
   C3_wrap_threshold (s2l "") (s2l ("--a " ++ String.mk (List.replicate 80 'x')))
     (by decide) (by decide)⟩

/-- C3, counterexample: with inner indent of four spaces and a 75-column
parameter string containing three flags, the rendered invocation line
`    ······az vm create <parameters>` is 98 ≥ 80 columns long, so the
claim requires wrapping; the code compares only `75 + 4 < 80` and keeps
the invocation on one line (no continuation newline is emitted). -/
theorem C3_counterexample :
    80 ≤ (s2l "    " ++ s2l "      az vm create " ++
          s2l "--aaaaaaaaaaaaaaaaaaaa 1 2 --bbbbbbbbbbbbbbbbbbbb vvvv --ccccccccccccc wwww").length ∧
    1 ≤ (splitOnSpace
          (s2l "--aaaaaaaaaaaaaaaaaaaa 1 2 --bbbbbbbbbbbbbbbbbbbb vvvv --ccccccccccccc wwww")).countP
          isFlagTok ∧
    invocationBody (s2l "    ")
        (s2l "--aaaaaaaaaaaaaaaaaaaa 1 2 --bbbbbbbbbbbbbbbbbbbb vvvv --ccccccccccccc wwww") =
      [' ' :: s2l "--aaaaaaaaaaaaaaaaaaaa 1 2 --bbbbbbbbbbbbbbbbbbbb vvvv --ccccccccccccc wwww"] ∧
    ((invocationBody (s2l "    ")
        (s2l "--aaaaaaaaaaaaaaaaaaaa 1 2 --bbbbbbbbbbbbbbbbbbbb vvvv --ccccccccccccc wwww")).flatten).count
        '\n' = 0 := by
  refine ⟨by decide, by decide, by decide, by decide⟩


/-! Claim C6: continuation-line structure of wrapped invocations. -/

/-- Split a character stream into display lines at each newline (the
newline itself is dropped). -/
def splitNL : List Char → List (List Char)
  | [] => [[]]
  | c :: cs =>
    if c = '\n' then [] :: splitNL cs
    else
      match splitNL cs with
      | t :: ts => (c :: t) :: ts
      | [] => [[c]]

/-- The display lines of the wrapped invocation, built token by token: a
flag closes the current line with the continuation marker and starts a
fresh indented line, a value extends the current line. -/
def buildLines (inner : List Char) : List Char → List (List Char) → List (List Char)
  | cur, [] => [cur]
  | cur, p :: ps =>
    if isFlagTok p then
      (cur ++ s2l " \\\\") :: buildLines inner (inner ++ s2l "      " ++ p) ps
    else buildLines inner (cur ++ ' ' :: p) ps

theorem splitNL_noNL (xs : List Char) (h : '\n' ∉ xs) : splitNL xs = [xs] := by
  induction xs with
  | nil => rfl
  | cons c cs ih =>
    have hc : ¬(c = '\n') := fun hcc => h (hcc ▸ List.mem_cons_self c cs)
    have hcs : '\n' ∉ cs := fun hm => h (List.mem_cons_of_mem c hm)
    unfold splitNL
    simp only [hc, if_false, ih hcs]

theorem splitNL_append_nl (a b : List Char) (ha : '\n' ∉ a) :
    splitNL (a ++ '\n' :: b) = a :: splitNL b := by
  induction a with
  | nil => simp [splitNL]
  | cons c a' ih =>
    have hc : ¬(c = '\n') := fun hcc => ha (hcc ▸ List.mem_cons_self c a')
    have ha' : '\n' ∉ a' := fun hm => ha (List.mem_cons_of_mem c hm)
    simp only [List.cons_append]
    conv_lhs => unfold splitNL
    simp only [hc, if_false, ih ha']

theorem splitNL_marker (a b : List Char) (ha : '\n' ∉ a) :
    splitNL (a ++ ' ' :: '\\' :: '\\' :: '\n' :: b) = (a ++ s2l " \\\\") :: splitNL b := by
  have h1 : a ++ ' ' :: '\\' :: '\\' :: '\n' :: b = (a ++ s2l " \\\\") ++ '\n' :: b := by
    have h2 : s2l " \\\\" = [' ', '\\', '\\'] := rfl
    rw [h2, List.append_assoc]
    rfl
  rw [h1, splitNL_append_nl]
  intro hmem
  rcases List.mem_append.mp hmem with h | h
  · exact ha h
  · revert h; decide

/-- The display lines of `cur` followed by the wrap-mode fragments are
exactly `buildLines`. -/
theorem splitNL_wrapFrags (inner : List Char) (ts : List (List Char)) :
    ∀ cur, '\n' ∉ cur → '\n' ∉ inner → (∀ p ∈ ts, '\n' ∉ p) →
    splitNL (cur ++ (ts.map (wrapFrag inner)).flatten) = buildLines inner cur ts := by
  induction ts with
  | nil =>
    intro cur hc _ _
    simp [splitNL_noNL cur hc, buildLines]
  | cons p ps ih =>
    intro cur hc hi hts
    have hp : '\n' ∉ p := hts p (List.mem_cons_self p ps)
    have hps : ∀ q ∈ ps, '\n' ∉ q := fun q hq => hts q (List.mem_cons_of_mem p hq)
    by_cases hf : isFlagTok p = true
    · have hfrag : wrapFrag inner p = ' ' :: '\\' :: '\\' :: '\n' :: (inner ++ s2l "      " ++ p) := by
        unfold wrapFrag
        rw [if_pos hf]
        have h2 : s2l " \\\\\n" = [' ', '\\', '\\', '\n'] := rfl
        rw [h2]
        simp
      have hstep : cur ++ ((p :: ps).map (wrapFrag inner)).flatten =
          cur ++ ' ' :: '\\' :: '\\' :: '\n' ::
            ((inner ++ s2l "      " ++ p) ++ (ps.map (wrapFrag inner)).flatten) := by
        simp only [List.map_cons, List.flatten_cons, hfrag]
        simp
      rw [hstep, splitNL_marker _ _ hc,
          ih (inner ++ s2l "      " ++ p)
            (by
              intro hmem
              rcases List.mem_append.mp hmem with hm | hm
              · rcases List.mem_append.mp hm with hm2 | hm2
                · exact hi hm2
                · revert hm2; decide
              · exact hp hm) hi hps]
      simp [buildLines, hf]
    · have hfrag : wrapFrag inner p = ' ' :: p := by
        unfold wrapFrag
        rw [if_neg hf]
      have hstep : cur ++ ((p :: ps).map (wrapFrag inner)).flatten =
          (cur ++ ' ' :: p) ++ (ps.map (wrapFrag inner)).flatten := by
        simp only [List.map_cons, List.flatten_cons, hfrag]
        simp
      rw [hstep, ih (cur ++ ' ' :: p)
            (by
              intro hmem
              rcases List.mem_append.mp hmem with hm | hm
              · exact hc hm
              · rcases List.mem_cons.mp hm with hm2 | hm2
                · exact absurd hm2 (by decide)
                · exact hp hm2) hi hps]
      simp [buildLines, hf]

/-- The number of flag tokens on one display line, splitting the line on
single spaces as `parameters.split(' ')` does. -/
def countFlags (l : List Char) : Nat := (splitOnSpace l).countP isFlagTok

theorem splitOnSpace_ne_nil (s : List Char) : splitOnSpace s ≠ [] := by
  match s with
  | [] => simp [splitOnSpace]
  | c :: cs =>
    unfold splitOnSpace
    by_cases hc : c = ' '
    · simp [hc]
    · simp only [hc, if_false]
      cases h : splitOnSpace cs <;> simp

theorem splitOnSpace_cons_space (cs : List Char) :
    splitOnSpace (' ' :: cs) = [] :: splitOnSpace cs := by
  conv_lhs => unfold splitOnSpace
  rw [if_pos rfl]

theorem splitOnSpace_cons_other (c : Char) (cs : List Char) (hc : ¬c = ' ')
    (u : List Char) (us : List (List Char)) (h : splitOnSpace cs = u :: us) :
    splitOnSpace (c :: cs) = (c :: u) :: us := by
  unfold splitOnSpace
  rw [if_neg hc, h]

theorem splitOnSpace_append_space (xs ys : List Char) :
    splitOnSpace (xs ++ ' ' :: ys) = splitOnSpace xs ++ splitOnSpace ys := by
  induction xs with
  | nil => simp [splitOnSpace_cons_space, splitOnSpace]
  | cons c xs' ih =>
    by_cases hc : c = ' '
    · subst hc
      simp only [List.cons_append, splitOnSpace_cons_space, ih]
    · simp only [List.cons_append]
      cases hsp : splitOnSpace xs' with
      | nil => exact absurd hsp (splitOnSpace_ne_nil xs')
      | cons u us =>
        have hl : splitOnSpace (xs' ++ ' ' :: ys) = u :: (us ++ splitOnSpace ys) := by
          rw [ih, hsp]; simp
        rw [splitOnSpace_cons_other c _ hc _ _ hl,
            splitOnSpace_cons_other c _ hc _ _ hsp]
        simp

theorem noSpace_splitOnSpace (v : List Char) (hv : ' ' ∉ v) : splitOnSpace v = [v] := by
  induction v with
  | nil => rfl
  | cons c cs ih =>
    have hc : ¬(c = ' ') := fun hcc => hv (hcc ▸ List.mem_cons_self c cs)
    have hcs : ' ' ∉ cs := fun hm => hv (List.mem_cons_of_mem c hm)
    unfold splitOnSpace
    simp only [hc, if_false, ih hcs]

theorem mem_splitOnSpace_noSpace :
    ∀ (s t : List Char), t ∈ splitOnSpace s → ' ' ∉ t := by
  intro s
  induction s with
  | nil => intro t ht; simp [splitOnSpace] at ht; subst ht; simp
  | cons c cs ih =>
    intro t ht
    unfold splitOnSpace at ht
    by_cases hc : c = ' '
    · simp [hc] at ht
      rcases ht with ht | ht
      · subst ht; simp
      · exact ih t ht
    · simp only [hc, if_false] at ht
      cases hsp : splitOnSpace cs with
      | nil => exact absurd hsp (splitOnSpace_ne_nil cs)
      | cons u us =>
        rw [hsp] at ht
        simp at ht
        rcases ht with ht | ht
        · subst ht
          intro hmem
          rcases List.mem_cons.mp hmem with hm | hm
          · exact hc hm.symm
          · exact ih u (by rw [hsp]; exact List.mem_cons_self u us) hm
        · exact ih t (by rw [hsp]; exact List.mem_cons_of_mem _ ht)

theorem countFlags_append_tok (l v : List Char) (hv : ' ' ∉ v) :
    countFlags (l ++ ' ' :: v) = countFlags l + (if isFlagTok v = true then 1 else 0) := by
  unfold countFlags
  rw [splitOnSpace_append_space, List.countP_append, noSpace_splitOnSpace v hv]
  simp [List.countP_cons]

theorem countFlags_spaces_tok :
    ∀ (a p : List Char), (∀ c ∈ a, c = ' ') → ' ' ∉ p →
    countFlags (a ++ p) = if isFlagTok p = true then 1 else 0 := by
  intro a
  induction a with
  | nil =>
    intro p _ hp
    unfold countFlags
    rw [List.nil_append, noSpace_splitOnSpace p hp]
    simp [List.countP_cons]
  | cons c a' ih =>
    intro p ha hp
    have hc : c = ' ' := ha c (List.mem_cons_self c a')
    subst hc
    have ha' : ∀ c ∈ a', c = ' ' := fun c hm => ha c (List.mem_cons_of_mem _ hm)
    unfold countFlags
    simp only [List.cons_append]
    conv_lhs => unfold splitOnSpace
    rw [if_pos rfl]
    simp only [List.countP_cons]
    have := ih p ha' hp
    unfold countFlags at this
    simp [this]
    decide

theorem buildLines_count_or (inner : List Char) (hi : ∀ c ∈ inner, c = ' ') :
    ∀ (ts : List (List Char)), (∀ p ∈ ts, ' ' ∉ p) →
    ∀ cur, ∀ l ∈ buildLines inner cur ts, countFlags l = countFlags cur ∨ countFlags l = 1 := by
  intro ts
  induction ts with
  | nil =>
    intro _ cur l hl
    simp [buildLines] at hl
    subst hl
    exact Or.inl rfl
  | cons p ps ih =>
    intro hts cur l hl
    have hp : ' ' ∉ p := hts p (List.mem_cons_self p ps)
    have hps : ∀ q ∈ ps, ' ' ∉ q := fun q hq => hts q (List.mem_cons_of_mem p hq)
    by_cases hf : isFlagTok p = true
    · rw [show buildLines inner cur (p :: ps) =
          (cur ++ s2l " \\\\") :: buildLines inner (inner ++ s2l "      " ++ p) ps from by
        simp [buildLines, hf]] at hl
      rcases List.mem_cons.mp hl with hl | hl
      · subst hl
        left
        have : cur ++ s2l " \\\\" = cur ++ ' ' :: ['\\', '\\'] := rfl
        rw [this, countFlags_append_tok cur ['\\', '\\'] (by decide)]
        simp [show isFlagTok ['\\', '\\'] = false from by decide]
      · right
        have hcur1 : countFlags (inner ++ s2l "      " ++ p) = 1 := by
          have hsp : ∀ c ∈ inner ++ s2l "      ", c = ' ' := by
            intro c hmem
            rcases List.mem_append.mp hmem with hm | hm
            · exact hi c hm
            · exact List.eq_of_mem_replicate
                ((show s2l "      " = List.replicate 6 ' ' from rfl) ▸ hm)
          rw [countFlags_spaces_tok (inner ++ s2l "      ") p hsp hp, if_pos hf]
        rcases ih hps (inner ++ s2l "      " ++ p) l hl with h | h
        · rw [h, hcur1]
        · exact h
    · rw [show buildLines inner cur (p :: ps) =
          buildLines inner (cur ++ ' ' :: p) ps from by simp [buildLines, hf]] at hl
      rcases ih hps (cur ++ ' ' :: p) l hl with h | h
      · left
        rw [h, countFlags_append_tok cur p hp, if_neg hf]
        simp
      · exact Or.inr h

theorem buildLines_tail_count (inner : List Char) (hi : ∀ c ∈ inner, c = ' ') :
    ∀ (ts : List (List Char)), (∀ p ∈ ts, ' ' ∉ p) →
    ∀ cur, ∀ l ∈ (buildLines inner cur ts).tail, countFlags l = 1 := by
  intro ts
  induction ts with
  | nil => intro _ cur l hl; simp [buildLines] at hl
  | cons p ps ih =>
    intro hts cur l hl
    have hp : ' ' ∉ p := hts p (List.mem_cons_self p ps)
    have hps : ∀ q ∈ ps, ' ' ∉ q := fun q hq => hts q (List.mem_cons_of_mem p hq)
    by_cases hf : isFlagTok p = true
    · rw [show buildLines inner cur (p :: ps) =
          (cur ++ s2l " \\\\") :: buildLines inner (inner ++ s2l "      " ++ p) ps from by
        simp [buildLines, hf]] at hl
      simp only [List.tail_cons] at hl
      have hcur1 : countFlags (inner ++ s2l "      " ++ p) = 1 := by
        have hsp : ∀ c ∈ inner ++ s2l "      ", c = ' ' := by
          intro c hmem
          rcases List.mem_append.mp hmem with hm | hm
          · exact hi c hm
          · exact List.eq_of_mem_replicate
              ((show s2l "      " = List.replicate 6 ' ' from rfl) ▸ hm)
        rw [countFlags_spaces_tok (inner ++ s2l "      ") p hsp hp, if_pos hf]
      rcases buildLines_count_or inner hi ps hps (inner ++ s2l "      " ++ p) l hl with h | h
      · rw [h, hcur1]
      · exact h
    · rw [show buildLines inner cur (p :: ps) =
          buildLines inner (cur ++ ' ' :: p) ps from by simp [buildLines, hf]] at hl
      exact ih hps (cur ++ ' ' :: p) l hl

theorem buildLines_mem_shape (inner : List Char) :
    ∀ (ts : List (List Char)) (cur : List Char), ∀ l ∈ buildLines inner cur ts,
      (∃ ext, l = cur ++ ext) ∨
      ∃ p, p ∈ ts ∧ isFlagTok p = true ∧ ∃ ext, l = (inner ++ s2l "      " ++ p) ++ ext := by
  intro ts
  induction ts with
  | nil =>
    intro cur l hl
    simp [buildLines] at hl
    subst hl
    exact Or.inl ⟨[], by simp⟩
  | cons p ps ih =>
    intro cur l hl
    by_cases hf : isFlagTok p = true
    · rw [show buildLines inner cur (p :: ps) =
          (cur ++ s2l " \\\\") :: buildLines inner (inner ++ s2l "      " ++ p) ps from by
        simp [buildLines, hf]] at hl
      rcases List.mem_cons.mp hl with hl | hl
      · exact Or.inl ⟨s2l " \\\\", hl⟩
      · rcases ih (inner ++ s2l "      " ++ p) l hl with ⟨ext, hext⟩ | ⟨q, hq, hqf, ext, hext⟩
        · exact Or.inr ⟨p, List.mem_cons_self p ps, hf, ext, hext⟩
        · exact Or.inr ⟨q, List.mem_cons_of_mem p hq, hqf, ext, hext⟩
    · rw [show buildLines inner cur (p :: ps) =
          buildLines inner (cur ++ ' ' :: p) ps from by simp [buildLines, hf]] at hl
      rcases ih (cur ++ ' ' :: p) l hl with ⟨ext, hext⟩ | ⟨q, hq, hqf, ext, hext⟩
      · exact Or.inl ⟨' ' :: p ++ ext, by rw [hext]; simp⟩
      · exact Or.inr ⟨q, List.mem_cons_of_mem p hq, hqf, ext, hext⟩

theorem buildLines_tail_flagStart (inner : List Char) :
    ∀ (ts : List (List Char)) (cur : List Char), ∀ l ∈ (buildLines inner cur ts).tail,
      ∃ p, p ∈ ts ∧ isFlagTok p = true ∧
        (inner ++ s2l "      " ++ p).isPrefixOf l = true := by
  intro ts
  induction ts with
  | nil => intro cur l hl; simp [buildLines] at hl
  | cons p ps ih =>
    intro cur l hl
    by_cases hf : isFlagTok p = true
    · rw [show buildLines inner cur (p :: ps) =
          (cur ++ s2l " \\\\") :: buildLines inner (inner ++ s2l "      " ++ p) ps from by
        simp [buildLines, hf]] at hl
      simp only [List.tail_cons] at hl
      rcases buildLines_mem_shape inner ps (inner ++ s2l "      " ++ p) l hl with
        ⟨ext, hext⟩ | ⟨q, hq, hqf, ext, hext⟩
      · exact ⟨p, List.mem_cons_self p ps, hf, by
          rw [hext, List.isPrefixOf_iff_prefix]
          exact List.prefix_append _ _⟩
      · exact ⟨q, List.mem_cons_of_mem p hq, hqf, by
          rw [hext, List.isPrefixOf_iff_prefix]
          exact List.prefix_append _ _⟩
    · rw [show buildLines inner cur (p :: ps) =
          buildLines inner (cur ++ ' ' :: p) ps from by simp [buildLines, hf]] at hl
      rcases ih (cur ++ ' ' :: p) l hl with ⟨q, hq, hqf, hqp⟩
      exact ⟨q, List.mem_cons_of_mem p hq, hqf, hqp⟩

/-- C6, amended: every continuation line of a wrapped invocation begins,
after the indentation, with exactly one flag token; the value tokens that
follow a flag stay on that flag's continuation line rather than receiving
lines of their own, so a continuation line carries one flag plus all its
trailing values. -/
theorem C6_continuation_lines (cmd inner parameters : List Char)
    (hi : ∀ c ∈ inner, c = ' ') (hcmd : '\n' ∉ cmd) (hp : '\n' ∉ parameters) :
    ∀ l ∈ (splitNL ((inner ++ s2l "      az " ++ cmd) ++
        (invocationBody inner parameters).flatten)).tail,
      countFlags l = 1 ∧
      ∃ p, p ∈ splitOnSpace parameters ∧ isFlagTok p = true ∧
        (inner ++ s2l "      " ++ p).isPrefixOf l = true := by
  have hiNL : '\n' ∉ inner := fun hm => absurd (hi '\n' hm) (by decide)
  have hcur : '\n' ∉ inner ++ s2l "      az " ++ cmd := by
    intro hmem
    rcases List.mem_append.mp hmem with hm | hm
    · rcases List.mem_append.mp hm with hm2 | hm2
      · exact hiNL hm2
      · revert hm2
        intro hm2
        exact absurd hm2 (by decide)
    · exact hcmd hm
  unfold invocationBody
  by_cases hlt : parameters.length + inner.length < 80
  · simp only [hlt, if_true]
    intro l hl
    rw [show ([' ' :: parameters] : List (List Char)).flatten = ' ' :: parameters from by simp]
      at hl
    rw [splitNL_noNL _ (by
      intro hmem
      rcases List.mem_append.mp hmem with hm | hm
      · exact hcur hm
      · rcases List.mem_cons.mp hm with hm2 | hm2
        · exact absurd hm2 (by decide)
        · exact hp hm2)] at hl
    simp at hl
  · simp only [hlt, if_false]
    have htsNL : ∀ p ∈ splitOnSpace parameters, '\n' ∉ p := by
      intro p hpm hmem
      exact hp (mem_splitOnSpace_sub parameters p hpm '\n' hmem)
    have htsSp : ∀ p ∈ splitOnSpace parameters, ' ' ∉ p :=
      fun p hpm => mem_splitOnSpace_noSpace parameters p hpm
    rw [splitNL_wrapFrags inner (splitOnSpace parameters) _ hcur hiNL htsNL]
    intro l hl
    exact ⟨buildLines_tail_count inner hi (splitOnSpace parameters) htsSp _ l hl,
           buildLines_tail_flagStart inner (splitOnSpace parameters) _ l hl⟩

/-- Witness for `C6_continuation_lines` at a concrete wrapped record and
its first continuation line. -/
theorem C6_continuation_lines_witness :
    countFlags (s2l "          --name my vm \\\\") = 1 ∧
    ∃ p, p ∈ splitOnSpace (s2l "--name my vm --size " ++ List.replicate 60 'b') ∧
      isFlagTok p = true ∧
      (s2l "    " ++ s2l "      " ++ p).isPrefixOf
        (s2l "          --name my vm \\\\") = true :=
  C6_continuation_lines (s2l "vm") (s2l "    ")
    (s2l "--name my vm --size " ++ List.replicate 60 'b')
    (by decide) (by decide) (by decide)
    (s2l "          --name my vm \\\\") (by decide)

/-- C6, counterexample: for the wrapped parameters
`--name my vm --size bbb…b` the first continuation line is
`      --name my vm \\`, which carries three flag-or-value tokens
(`--name`, `my`, `vm`), not exactly one. -/
theorem C6_counterexample :
    (splitNL ((s2l "" ++ s2l "      az " ++ s2l "vm") ++
        (invocationBody (s2l "")
          (s2l "--name my vm --size " ++ List.replicate 60 'b')).flatten))[1]? =
      some (s2l "      --name my vm \\\\") ∧
    ((splitOnSpace (s2l "      --name my vm \\\\")).filter
        (fun t => decide (t ≠ []) && decide (t ≠ s2l "\\\\"))).length = 3 ∧
    (3 : Nat) ≠ 1 := by
  refine ⟨by decide, by decide, by decide⟩

/-! Claim C7: missing command prefix aborts the run. -/

theorem indexOfSub_none_iff (hay pat : List Char) :
    indexOfSub hay pat = none ↔ containsSub hay pat = false := by
  induction hay with
  | nil =>
    unfold indexOfSub containsSub
    by_cases hp : pat.isPrefixOf ([] : List Char) = true <;> simp [hp]
  | cons c rest ih =>
    unfold indexOfSub containsSub
    by_cases hp : pat.isPrefixOf (c :: rest) = true <;> simp [hp, ih]

theorem formatAux_error (cmd : List Char) :
    ∀ (exs : List ExampleRecord) (m : Groups) (e : ExampleRecord),
      e ∈ exs → (∃ err, exampleSig cmd e.text = .error err) →
      ∃ err, formatExamplesAux cmd exs m = .error err := by
  intro exs
  induction exs with
  | nil => intro m e hmem; simp at hmem
  | cons x xs ih =>
    intro m e hmem ⟨err, herr⟩
    unfold formatExamplesAux
    cases hx : exampleSig cmd x.text with
    | error e2 => exact ⟨e2, rfl⟩
    | ok s =>
      rcases List.mem_cons.mp hmem with hm | hm
      · subst hm
        rw [hx] at herr
        exact absurd herr (by simp)
      · exact ih (addToGroup m s x) e hm ⟨err, herr⟩

/-- C7: a record whose text lacks the command prefix makes the signature
extractor fail with the missing-prefix error (Python's `ValueError` from
`str.index`); the failure propagates through `format_examples` and
`merge_examples`, so no signature is ever produced for such a record and
the run aborts. -/
theorem C7_malformed_aborts (cmd : List Char) (exs : List ExampleRecord) (e : ExampleRecord)
    (hmem : e ∈ exs) (hmiss : containsSub e.text cmd = false) :
    exampleSig cmd e.text = .error .malformedExample ∧
    (∃ err, formatExamples cmd exs = .error err) ∧
    (∀ raw cli buffer, ∃ err, mergeExamples cmd raw cli (some exs) buffer = .error err) := by
  have hsig : exampleSig cmd e.text = .error .malformedExample := by
    unfold exampleSig
    rw [(indexOfSub_none_iff e.text cmd).mpr hmiss]
  refine ⟨hsig, ?_, ?_⟩
  · exact formatAux_error cmd exs [] e hmem ⟨.malformedExample, hsig⟩
  · intro raw cli buffer
    unfold mergeExamples
    cases hcli : formatExamples cmd (match cli with | none => [] | some l => l) with
    | error e2 => exact ⟨e2, by simp [hcli]⟩
    | ok fc =>
      obtain ⟨err, herr⟩ := formatAux_error cmd exs [] e hmem ⟨.malformedExample, hsig⟩
      have : formatExamples cmd exs = .error err := herr
      exact ⟨err, by simp [hcli, this]⟩

/-- Witness for `C7_malformed_aborts` at a concrete malformed record. -/
theorem C7_malformed_aborts_witness :
    exampleSig (s2l "vm create") (s2l "az network list") = .error .malformedExample ∧
    (∃ err, formatExamples (s2l "vm create")
        [⟨s2l "bad", s2l "az network list", false⟩] = .error err) ∧
    (∃ err, mergeExamples (s2l "vm create") [s2l "type: command\n"] none
        (some [⟨s2l "bad", s2l "az network list", false⟩]) [] = .error err) :=
  ⟨(C7_malformed_aborts (s2l "vm create") [⟨s2l "bad", s2l "az network list", false⟩]
      ⟨s2l "bad", s2l "az network list", false⟩ (by decide) (by decide)).1,
   (C7_malformed_aborts (s2l "vm create") [⟨s2l "bad", s2l "az network list", false⟩]
      ⟨s2l "bad", s2l "az network list", false⟩ (by decide) (by decide)).2.1,
   (C7_malformed_aborts (s2l "vm create") [⟨s2l "bad", s2l "az network list", false⟩]
      ⟨s2l "bad", s2l "az network list", false⟩ (by decide) (by decide)).2.2
     [s2l "type: command\n"] none []⟩

/-! Claim C9: termination of the block-reading loop. -/

/-- The spec-side well-formedness of a documentation file, amended: every
line starting a help block is followed, before end of file, by a line that
ends with the closing marker including its newline (`'\"\"\"\n'`). -/
def blocksClosed : List (List Char) → Bool
  | [] => true
  | l :: ls => (!(startsHelps l) || ls.any endsMarker) && blocksClosed ls

theorem exampleSig_no_hang (cmd t : List Char) : exampleSig cmd t ≠ .error .hang := by
  unfold exampleSig
  cases h1 : indexOfSub t cmd with
  | none => simp
  | some i =>
    cases h2 : indexOfSub (t.drop i) cmd with
    | none => simp only [h2]; simp
    | some j =>
      simp only [h2]
      cases h3 : shlexSplit ((t.drop i).drop (j + cmd.length)) with
      | error e => simp only [h3]; simp
      | ok toks => simp only [h3]; simp

theorem formatAux_no_hang (cmd : List Char) :
    ∀ (exs : List ExampleRecord) (m : Groups), formatExamplesAux cmd exs m ≠ .error .hang := by
  intro exs
  induction exs with
  | nil => intro m; simp [formatExamplesAux]
  | cons x xs ih =>
    intro m
    unfold formatExamplesAux
    cases hx : exampleSig cmd x.text with
    | error e =>
      intro hcon
      apply exampleSig_no_hang cmd x.text
      rw [hx]
      exact congrArg Except.error (Except.error.inj hcon) ▸ rfl
    | ok s => exact ih (addToGroup m s x)

theorem writeFrags_no_hang (cmd inner : List Char) (ex : ExampleRecord) :
    writeExampleFrags cmd inner ex ≠ .error .hang := by
  unfold writeExampleFrags
  cases h : indexOfSub (pyReplaceBackslash ex.text) cmd with
  | none => simp only [h]; simp
  | some i => simp only [h]; simp

theorem writeAll_no_hang (cmd inner : List Char) :
    ∀ exs, writeExamplesAll cmd inner exs ≠ .error .hang := by
  intro exs
  induction exs with
  | nil => simp [writeExamplesAll]
  | cons x xs ih =>
    unfold writeExamplesAll
    cases hx : writeExampleFrags cmd inner x with
    | error e =>
      intro hcon
      apply writeFrags_no_hang cmd inner x
      rw [hx, Except.error.inj hcon]
    | ok f =>
      cases hr : writeExamplesAll cmd inner xs with
      | error e =>
        intro hcon
        apply ih
        rw [hr, Except.error.inj hcon]
      | ok r => simp

theorem appendLoop_no_hang (cmd preceding inner : List Char) (fmtCli : Groups)
    (alNonempty cliEmpty : Bool) :
    ∀ (groups : Groups) (kw : Bool) (buf : List (List Char)),
      appendLoop cmd preceding inner fmtCli alNonempty cliEmpty groups kw buf ≠ .error .hang := by
  intro groups
  induction groups with
  | nil => intro kw buf; simp [appendLoop]
  | cons g rest ih =>
    intro kw buf
    obtain ⟨sig, exs⟩ := g
    unfold appendLoop
    by_cases hk : hasKeyB fmtCli sig = true
    · simp only [hk, if_true]
      exact ih kw buf
    · simp only [hk, if_false]
      cases hw : writeExamplesAll cmd inner exs with
      | error e =>
        intro hcon
        apply writeAll_no_hang cmd inner exs
        rw [hw, Except.error.inj hcon]
      | ok frags => exact ih _ _

/-- Unfolding of `merge_examples` when generated examples are present. -/
theorem mergeExamples_eq (cmd : List Char) (raw : List (List Char))
    (cli : Option (List ExampleRecord)) (alExs : List ExampleRecord)
    (buffer : List (List Char)) :
    mergeExamples cmd raw cli (some alExs) buffer =
      match formatExamples cmd (cliListOf cli) with
      | .error e => .error e
      | .ok fmtCli =>
        match formatExamples cmd alExs with
        | .error e => .error e
        | .ok fmtAl =>
          match calculateIndent raw with
          | none => .error .indentError
          | some (preceding, inner) =>
            appendLoop cmd preceding inner fmtCli (decide (fmtAl ≠ []))
              (decide (fmtCli = [])) fmtAl false buffer := by
  cases cli <;> rfl

theorem mergeExamples_no_hang (cmd : List Char) (raw : List (List Char))
    (cli al : Option (List ExampleRecord)) (buffer : List (List Char)) :
    mergeExamples cmd raw cli al buffer ≠ .error .hang := by
  cases al with
  | none => simp [mergeExamples]
  | some alExs =>
    rw [mergeExamples_eq]
    cases hc : formatExamples cmd (cliListOf cli) with
    | error e =>
      intro hcon
      exact formatAux_no_hang cmd (cliListOf cli) []
        (by rw [show formatExamplesAux cmd (cliListOf cli) [] =
                  formatExamples cmd (cliListOf cli) from rfl, hc, Except.error.inj hcon])
    | ok fc =>
      cases ha : formatExamples cmd alExs with
      | error e =>
        intro hcon
        exact formatAux_no_hang cmd alExs []
          (by rw [show formatExamplesAux cmd alExs [] = formatExamples cmd alExs from rfl,
                  ha, Except.error.inj hcon])
      | ok fa =>
        cases hi : calculateIndent raw with
        | none => simp
        | some pr =>
          obtain ⟨preceding, inner⟩ := pr
          exact appendLoop_no_hang cmd preceding inner fc _ _ fa false buffer

theorem except_map_no_hang (f : List (List Char) → List (List Char))
    (x : Except RunErr (List (List Char))) (hx : x ≠ .error .hang) :
    x.map f ≠ .error .hang := by
  cases x with
  | error e =>
    intro hcon
    apply hx
    simpa [Except.map] using hcon
  | ok a => simp [Except.map]

theorem mergeLines_no_hang_aux (gen : List Char → Option (Option (List ExampleRecord)))
    (parse : List (List Char) → Option (List ExampleRecord)) :
    ∀ (lines : List (List Char)) (mode : MergeMode),
      (match mode with
       | .top => blocksClosed lines = true
       | .inBlock _ _ => lines.any endsMarker = true ∧ blocksClosed lines = true) →
      mergeLines gen parse lines mode ≠ .error .hang := by
  intro lines
  induction lines with
  | nil =>
    intro mode hm
    cases mode with
    | top => simp [mergeLines]
    | inBlock cmd body => simp at hm
  | cons l ls ih =>
    intro mode hm
    cases mode with
    | top =>
      have hbc : ((!(startsHelps l) || ls.any endsMarker) && blocksClosed ls) = true := hm
      have hls : blocksClosed ls = true := (Bool.and_eq_true .. ▸ hbc).2
      unfold mergeLines
      by_cases hh : startsHelps l = true
      · simp only [hh, if_true]
        cases hcap : helpsCapture l with
        | none => simp
        | some cap =>
          have hany : ls.any endsMarker = true := by
            have := (Bool.and_eq_true .. ▸ hbc).1
            rw [hh] at this
            simpa using this
          exact except_map_no_hang _ _ (ih (.inBlock (pyStrip cap) []) ⟨hany, hls⟩)
      · simp only [hh, if_false]
        exact except_map_no_hang _ _ (ih .top hls)
    | inBlock cmd body =>
      obtain ⟨hany, hbc⟩ := hm
      have hls : blocksClosed ls = true := (Bool.and_eq_true .. ▸ hbc).2
      unfold mergeLines
      by_cases he : endsMarker l = true
      · simp only [he, if_true]
        cases hg : (match gen cmd with
                    | none => (.ok [] : Except RunErr (List (List Char)))
                    | some alExs => mergeExamples cmd body (parse body) alExs []) with
        | error e =>
          have hne : (match gen cmd with
                      | none => (.ok [] : Except RunErr (List (List Char)))
                      | some alExs => mergeExamples cmd body (parse body) alExs []) ≠
              .error .hang := by
            cases hgc : gen cmd with
            | none => simp
            | some alExs => exact mergeExamples_no_hang cmd body (parse body) alExs []
          rw [hg] at hne
          exact hne
        | ok appended =>
          cases hrec2 : mergeLines gen parse ls .top with
          | error e =>
            have hne := ih .top hls
            rw [hrec2] at hne
            exact hne
          | ok out => simp
      · simp only [he, if_false]
        have hany2 : ls.any endsMarker = true := by
          simp only [List.any_cons, he] at hany
          simpa using hany
        exact ih (.inBlock cmd (body ++ [l])) ⟨hany2, hls⟩

/-- C9, amended: `merge` terminates on every file in which each block-start
line is followed, before end of file, by a line ending with the closing
marker and its newline (`'\"\"\"\n'`); the model never reaches the `hang`
outcome on such files. -/
theorem C9_merge_terminates (gen : List Char → Option (Option (List ExampleRecord)))
    (parse : List (List Char) → Option (List ExampleRecord))
    (lines : List (List Char)) (h : blocksClosed lines = true) :
    mergeFile gen parse lines ≠ .error .hang :=
  mergeLines_no_hang_aux gen parse lines .top h

/-- Witness for `C9_merge_terminates` at a concrete well-closed file. -/
theorem C9_merge_terminates_witness :
    blocksClosed [s2l "helps['x'] = \"\"\"\n", s2l "body\n", s2l "\"\"\"\n"] = true ∧
    mergeFile (fun _ => none) (fun _ => none)
      [s2l "helps['x'] = \"\"\"\n", s2l "body\n", s2l "\"\"\"\n"] ≠ .error .hang :=
  ⟨by decide, C9_merge_terminates (fun _ => none) (fun _ => none) _ (by decide)⟩

/-- C9, counterexample: in the file whose final line is `\"\"\"` without a
trailing newline, the block-start line is followed by a line ending in
`\"\"\"`, so the claim promises termination; but the loop condition
requires `'\"\"\"\n'`, `readline` keeps returning the empty string at end
of file, and the inner loop never terminates (the `hang` outcome). -/
theorem C9_counterexample :
    startsHelps (s2l "helps['x'] = \"\"\"\n") = true ∧
    (s2l "\"\"\"").isSuffixOf (s2l "\"\"\"") = true ∧
    mergeFile (fun _ => none) (fun _ => none)
      [s2l "helps['x'] = \"\"\"\n", s2l "body\n", s2l "\"\"\""] = .error .hang := by
  refine ⟨by decide, by decide, by decide⟩

/-! Claim C8: the merge never removes or reorders lines. -/

theorem mergeLines_sublist_aux (gen : List Char → Option (Option (List ExampleRecord)))
    (parse : List (List Char) → Option (List ExampleRecord)) :
    ∀ (lines : List (List Char)) (mode : MergeMode) (out : List (List Char)),
      mergeLines gen parse lines mode = .ok out →
      (match mode with
       | .top => lines.Sublist out
       | .inBlock _ body => ∃ t, out = body ++ t ∧ lines.Sublist t) := by
  intro lines
  induction lines with
  | nil =>
    intro mode out h
    cases mode with
    | top =>
      simp [mergeLines] at h
      subst h
      exact List.Sublist.refl []
    | inBlock cmd body => simp [mergeLines] at h
  | cons l ls ih =>
    intro mode out h
    cases mode with
    | top =>
      unfold mergeLines at h
      by_cases hh : startsHelps l = true
      · rw [if_pos hh] at h
        cases hcap : helpsCapture l with
        | none => rw [hcap] at h; exact absurd h (by simp)
        | some cap =>
          rw [hcap] at h
          dsimp only at h ⊢
          cases hrec : mergeLines gen parse ls (.inBlock (pyStrip cap) []) with
          | error e => rw [hrec] at h; exact absurd h (by simp [Except.map])
          | ok out' =>
            rw [hrec] at h
            simp [Except.map] at h
            obtain ⟨t, hout', hsub⟩ := ih (.inBlock (pyStrip cap) []) out' hrec
            rw [← h, hout']
            simp only [List.nil_append]
            exact List.Sublist.cons₂ l hsub
      · rw [if_neg hh] at h
        dsimp only at h ⊢
        cases hrec : mergeLines gen parse ls .top with
        | error e => rw [hrec] at h; exact absurd h (by simp [Except.map])
        | ok out' =>
          rw [hrec] at h
          simp [Except.map] at h
          rw [← h]
          exact List.Sublist.cons₂ l (ih .top out' hrec)
    | inBlock cmd body =>
      unfold mergeLines at h
      by_cases he : endsMarker l = true
      · rw [if_pos he] at h
        dsimp only at h ⊢
        cases hg : (match gen cmd with
                    | none => (.ok [] : Except RunErr (List (List Char)))
                    | some alExs => mergeExamples cmd body (parse body) alExs []) with
        | error e => rw [hg] at h; exact absurd h (by simp)
        | ok appended =>
          rw [hg] at h
          cases hrec : mergeLines gen parse ls .top with
          | error e => rw [hrec] at h; exact absurd h (by simp)
          | ok out2 =>
            rw [hrec] at h
            simp at h
            refine ⟨appended ++ [l] ++ out2, ?_, ?_⟩
            · rw [← h]; simp
            · have h1 : (l :: ls).Sublist (l :: out2) :=
                List.Sublist.cons₂ l (ih .top out2 hrec)
              have h2 : (l :: out2).Sublist (appended ++ [l] ++ out2) := by
                rw [List.append_assoc]
                simp only [List.singleton_append]
                exact List.sublist_append_right appended (l :: out2)
              exact h1.trans h2
      · rw [if_neg he] at h
        dsimp only at h ⊢
        obtain ⟨t, hout, hsub⟩ := ih (.inBlock cmd (body ++ [l])) out h
        refine ⟨l :: t, ?_, List.Sublist.cons₂ l hsub⟩
        rw [hout]
        simp

theorem mergeLines_unmatched_aux (gen : List Char → Option (Option (List ExampleRecord)))
    (parse : List (List Char) → Option (List ExampleRecord)) :
    ∀ (lines : List (List Char)),
      (∀ l ∈ lines, startsHelps l = true →
        (helpsCapture l).all (fun cap => decide (gen (pyStrip cap) = none)) = true) →
      ∀ (mode : MergeMode) (out : List (List Char)),
        mergeLines gen parse lines mode = .ok out →
        (match mode with
         | .top => out = lines
         | .inBlock cmd body => gen cmd = none → out = body ++ lines) := by
  intro lines
  induction lines with
  | nil =>
    intro _ mode out h
    cases mode with
    | top => simp [mergeLines] at h; simp [h]
    | inBlock cmd body => simp [mergeLines] at h
  | cons l ls ih =>
    intro hun mode out h
    have hunls : ∀ l2 ∈ ls, startsHelps l2 = true →
        (helpsCapture l2).all (fun cap => decide (gen (pyStrip cap) = none)) = true :=
      fun l2 hm => hun l2 (List.mem_cons_of_mem l hm)
    cases mode with
    | top =>
      unfold mergeLines at h
      by_cases hh : startsHelps l = true
      · rw [if_pos hh] at h
        cases hcap : helpsCapture l with
        | none => rw [hcap] at h; exact absurd h (by simp)
        | some cap =>
          rw [hcap] at h
          dsimp only at h ⊢
          have hgen : gen (pyStrip cap) = none := by
            have := hun l (List.mem_cons_self l ls) hh
            rw [hcap] at this
            simpa using this
          cases hrec : mergeLines gen parse ls (.inBlock (pyStrip cap) []) with
          | error e => rw [hrec] at h; exact absurd h (by simp [Except.map])
          | ok out' =>
            rw [hrec] at h
            simp [Except.map] at h
            have := ih hunls (.inBlock (pyStrip cap) []) out' hrec
            dsimp only at this
            rw [← h, this hgen]
            simp
      · rw [if_neg hh] at h
        dsimp only at h ⊢
        cases hrec : mergeLines gen parse ls .top with
        | error e => rw [hrec] at h; exact absurd h (by simp [Except.map])
        | ok out' =>
          rw [hrec] at h
          simp [Except.map] at h
          have := ih hunls .top out' hrec
          dsimp only at this
          rw [← h, this]
    | inBlock cmd body =>
      unfold mergeLines at h
      by_cases he : endsMarker l = true
      · rw [if_pos he] at h
        dsimp only at h ⊢
        intro hgen
        rw [hgen] at h
        dsimp only at h
        cases hrec : mergeLines gen parse ls .top with
        | error e => rw [hrec] at h; exact absurd h (by simp)
        | ok out2 =>
          rw [hrec] at h
          simp at h
          have := ih hunls .top out2 hrec
          dsimp only at this
          rw [← h, this]
      · rw [if_neg he] at h
        dsimp only at h ⊢
        intro hgen
        have := ih hunls (.inBlock cmd (body ++ [l])) out h
        dsimp only at this
        rw [this hgen]
        simp

/-- C8: a completed merge never removes or reorders lines — the input
lines form an order-preserving subsequence of the output, every inserted
fragment being strictly appended inside its block — and a file none of
whose block-start lines names a command of the generated input is
rewritten identical to its input. -/
theorem C8_merge_frame (gen : List Char → Option (Option (List ExampleRecord)))
    (parse : List (List Char) → Option (List ExampleRecord))
    (lines out : List (List Char)) (h : mergeFile gen parse lines = .ok out) :
    lines.Sublist out ∧
    ((∀ l ∈ lines, startsHelps l = true →
        (helpsCapture l).all (fun cap => decide (gen (pyStrip cap) = none)) = true) →
      out = lines) :=
  ⟨mergeLines_sublist_aux gen parse lines .top out h,
   fun hun => mergeLines_unmatched_aux gen parse lines hun .top out h⟩

/-- Witness for `C8_merge_frame` at a concrete file with one unmatched block. -/
theorem C8_merge_frame_witness :
    [s2l "# a\n", s2l "helps['x'] = \"\"\"\n", s2l "b\n", s2l "\"\"\"\n"].Sublist
      [s2l "# a\n", s2l "helps['x'] = \"\"\"\n", s2l "b\n", s2l "\"\"\"\n"] ∧
    [s2l "# a\n", s2l "helps['x'] = \"\"\"\n", s2l "b\n", s2l "\"\"\"\n"] =
      [s2l "# a\n", s2l "helps['x'] = \"\"\"\n", s2l "b\n", s2l "\"\"\"\n"] :=
  ⟨(C8_merge_frame (fun _ => none) (fun _ => none)
      [s2l "# a\n", s2l "helps['x'] = \"\"\"\n", s2l "b\n", s2l "\"\"\"\n"]
      [s2l "# a\n", s2l "helps['x'] = \"\"\"\n", s2l "b\n", s2l "\"\"\"\n"]
      (by decide)).1,
   (C8_merge_frame (fun _ => none) (fun _ => none)
      [s2l "# a\n", s2l "helps['x'] = \"\"\"\n", s2l "b\n", s2l "\"\"\"\n"]
      [s2l "# a\n", s2l "helps['x'] = \"\"\"\n", s2l "b\n", s2l "\"\"\"\n"]
      (by decide)).2 (by decide)⟩

/-! Properties of the grouping map. -/

theorem hasKeyB_iff (m : Groups) (k : Sig) : hasKeyB m k = true ↔ k ∈ m.map Prod.fst := by
  simp [hasKeyB, List.any_eq_true, List.mem_map]

theorem addToGroup_keys (m : Groups) (k : Sig) (v : ExampleRecord) :
    (addToGroup m k v).map Prod.fst =
      if hasKeyB m k = true then m.map Prod.fst else m.map Prod.fst ++ [k] := by
  induction m with
  | nil => simp [addToGroup, hasKeyB]
  | cons p rest ih =>
    obtain ⟨k', vs⟩ := p
    unfold addToGroup
    by_cases hk : k' = k
    · subst hk
      simp [hasKeyB]
    · have hne : (k', vs).1 = k ↔ False := by simp [hk]
      simp only [hk, if_false]
      rw [show hasKeyB ((k', vs) :: rest) k = hasKeyB rest k from by
        simp [hasKeyB, hk]]
      by_cases hr : hasKeyB rest k = true
      · simp [hr, ih]
      · simp [hr] at ih
        simp [hr, ih]

theorem mem_addToGroup_keys (m : Groups) (k k' : Sig) (v : ExampleRecord) :
    k' ∈ (addToGroup m k v).map Prod.fst ↔ k' ∈ m.map Prod.fst ∨ k' = k := by
  rw [addToGroup_keys]
  by_cases hk : hasKeyB m k = true
  · simp only [hk, if_true]
    constructor
    · exact Or.inl
    · rintro (h | h)
      · exact h
      · subst h; exact (hasKeyB_iff m k').mp hk
  · simp [hk]

theorem addToGroup_keys_nodup (m : Groups) (k : Sig) (v : ExampleRecord)
    (h : (m.map Prod.fst).Nodup) : ((addToGroup m k v).map Prod.fst).Nodup := by
  rw [addToGroup_keys]
  by_cases hk : hasKeyB m k = true
  · simp [hk, h]
  · rw [if_neg hk, List.nodup_append]
    refine ⟨h, List.nodup_singleton k, ?_⟩
    intro a ha hb
    simp at hb
    subst hb
    exact hk ((hasKeyB_iff m a).mpr ha)

theorem formatAux_keys_nodup (cmd : List Char) :
    ∀ (exs : List ExampleRecord) (m g : Groups), (m.map Prod.fst).Nodup →
      formatExamplesAux cmd exs m = .ok g → (g.map Prod.fst).Nodup := by
  intro exs
  induction exs with
  | nil =>
    intro m g hm h
    simp [formatExamplesAux] at h
    exact h ▸ hm
  | cons x xs ih =>
    intro m g hm h
    unfold formatExamplesAux at h
    cases hx : exampleSig cmd x.text with
    | error e => rw [hx] at h; exact absurd h (by simp)
    | ok s =>
      rw [hx] at h
      exact ih (addToGroup m s x) g (addToGroup_keys_nodup m s x hm) h

theorem formatAux_mem_keys (cmd : List Char) :
    ∀ (exs : List ExampleRecord) (m g : Groups),
      formatExamplesAux cmd exs m = .ok g →
      ∀ k, k ∈ g.map Prod.fst ↔
        (k ∈ m.map Prod.fst ∨ ∃ e ∈ exs, exampleSig cmd e.text = .ok k) := by
  intro exs
  induction exs with
  | nil =>
    intro m g h k
    simp [formatExamplesAux] at h
    simp [← h]
  | cons x xs ih =>
    intro m g h k
    unfold formatExamplesAux at h
    cases hx : exampleSig cmd x.text with
    | error e => rw [hx] at h; exact absurd h (by simp)
    | ok s =>
      rw [hx] at h
      rw [ih (addToGroup m s x) g h k, mem_addToGroup_keys]
      constructor
      · rintro ((hk | hk) | ⟨e, he, hke⟩)
        · exact Or.inl hk
        · subst hk
          exact Or.inr ⟨x, List.mem_cons_self x xs, hx⟩
        · exact Or.inr ⟨e, List.mem_cons_of_mem x he, hke⟩
      · rintro (hk | ⟨e, he, hke⟩)
        · exact Or.inl (Or.inl hk)
        · rcases List.mem_cons.mp he with hm2 | hm2
          · subst hm2
            rw [hx] at hke
            exact Or.inl (Or.inr (Except.ok.inj hke).symm)
          · exact Or.inr ⟨e, hm2, hke⟩

/-- Every group of the map carries the signature of each of its records. -/
def GroupsWf (cmd : List Char) (g : Groups) : Prop :=
  ∀ p ∈ g, ∀ e ∈ p.2, exampleSig cmd e.text = .ok p.1

theorem addToGroup_wf (cmd : List Char) (m : Groups) (k : Sig) (v : ExampleRecord)
    (hm : GroupsWf cmd m) (hv : exampleSig cmd v.text = .ok k) :
    GroupsWf cmd (addToGroup m k v) := by
  induction m with
  | nil =>
    intro p hp e he
    simp [addToGroup] at hp
    subst hp
    simp at he
    rcases he with he
    subst he
    exact hv
  | cons q rest ih =>
    obtain ⟨k', vs⟩ := q
    unfold addToGroup
    by_cases hk : k' = k
    · subst hk
      intro p hp e he
      rw [if_pos rfl] at hp
      rcases List.mem_cons.mp hp with hp | hp
      · subst hp
        simp at he
        rcases he with he | he
        · exact hm (k', vs) (List.mem_cons_self _ _) e he
        · subst he; exact hv
      · exact hm p (List.mem_cons_of_mem _ hp) e he
    · simp only [hk, if_false]
      intro p hp e he
      rcases List.mem_cons.mp hp with hp | hp
      · subst hp
        exact hm (k', vs) (List.mem_cons_self _ _) e he
      · exact ih (fun q hq => hm q (List.mem_cons_of_mem _ hq)) p hp e he

theorem formatAux_wf (cmd : List Char) :
    ∀ (exs : List ExampleRecord) (m g : Groups), GroupsWf cmd m →
      formatExamplesAux cmd exs m = .ok g → GroupsWf cmd g := by
  intro exs
  induction exs with
  | nil =>
    intro m g hm h
    simp [formatExamplesAux] at h
    exact h ▸ hm
  | cons x xs ih =>
    intro m g hm h
    unfold formatExamplesAux at h
    cases hx : exampleSig cmd x.text with
    | error e => rw [hx] at h; exact absurd h (by simp)
    | ok s =>
      rw [hx] at h
      exact ih (addToGroup m s x) g (addToGroup_wf cmd m s x hm hx) h

theorem formatAux_vals_nonempty (cmd : List Char) :
    ∀ (exs : List ExampleRecord) (m g : Groups), (∀ p ∈ m, p.2 ≠ []) →
      formatExamplesAux cmd exs m = .ok g → ∀ p ∈ g, p.2 ≠ [] := by
  intro exs
  induction exs with
  | nil =>
    intro m g hm h
    simp [formatExamplesAux] at h
    exact h ▸ hm
  | cons x xs ih =>
    intro m g hm h
    unfold formatExamplesAux at h
    cases hx : exampleSig cmd x.text with
    | error e => rw [hx] at h; exact absurd h (by simp)
    | ok s =>
      rw [hx] at h
      refine ih (addToGroup m s x) g ?_ h
      clear h ih
      induction m with
      | nil => intro p hp; simp [addToGroup] at hp; subst hp; simp
      | cons q rest ih2 =>
        obtain ⟨k', vs⟩ := q
        unfold addToGroup
        by_cases hk : k' = s
        · subst hk
          intro p hp
          rw [if_pos rfl] at hp
          rcases List.mem_cons.mp hp with hp | hp
          · subst hp; simp
          · exact hm p (List.mem_cons_of_mem _ hp)
        · simp only [hk, if_false]
          intro p hp
          rcases List.mem_cons.mp hp with hp | hp
          · subst hp
            exact hm (k', vs) (List.mem_cons_self _ _)
          · exact ih2 (fun q hq => hm q (List.mem_cons_of_mem _ hq)) p hp

/-! Claim C2: duplicate signatures are dropped, one group per signature. -/


theorem appendLoop_cons_skip (cmd preceding inner : List Char) (fmtCli : Groups)
    (alNe cliEm : Bool) (sig : Sig) (exs : List ExampleRecord) (rest : Groups)
    (kw : Bool) (buf : List (List Char)) (hk : hasKeyB fmtCli sig = true) :
    appendLoop cmd preceding inner fmtCli alNe cliEm ((sig, exs) :: rest) kw buf =
      appendLoop cmd preceding inner fmtCli alNe cliEm rest kw buf := by
  conv_lhs => unfold appendLoop
  rw [if_pos hk]

theorem appendLoop_cons_new (cmd preceding inner : List Char) (fmtCli : Groups)
    (alNe cliEm : Bool) (sig : Sig) (exs : List ExampleRecord) (rest : Groups)
    (kw : Bool) (buf : List (List Char)) (hk : ¬hasKeyB fmtCli sig = true) :
    appendLoop cmd preceding inner fmtCli alNe cliEm ((sig, exs) :: rest) kw buf =
      match writeExamplesAll cmd inner exs with
      | .error e => .error e
      | .ok frags =>
        appendLoop cmd preceding inner fmtCli alNe cliEm rest
          (if kw = false ∧ alNe = true ∧ cliEm = true then true else kw)
          ((if kw = false ∧ alNe = true ∧ cliEm = true
            then buf ++ [preceding ++ s2l "examples:\n"] else buf) ++ frags) := by
  conv_lhs => unfold appendLoop
  rw [if_neg hk]

theorem renderGroups_cons (cmd inner : List Char) (sig : Sig) (exs : List ExampleRecord)
    (rest : Groups) :
    renderGroups cmd inner ((sig, exs) :: rest) =
      match writeExamplesAll cmd inner exs with
      | .error e => .error e
      | .ok f =>
        match renderGroups cmd inner rest with
        | .error e => .error e
        | .ok r => .ok (f ++ r) := by
  conv_lhs => unfold renderGroups

theorem appendLoop_eq (cmd preceding inner : List Char) (fmtCli : Groups)
    (alNe cliEm : Bool) :
    ∀ (groups : Groups) (kw : Bool) (buf : List (List Char)),
      appendLoop cmd preceding inner fmtCli alNe cliEm groups kw buf =
      match renderGroups cmd inner (newGroups fmtCli groups) with
      | .error e => .error e
      | .ok frags =>
        .ok (buf ++
          (if kw = false ∧ alNe = true ∧ cliEm = true ∧ newGroups fmtCli groups ≠ []
           then [preceding ++ s2l "examples:\n"] else []) ++ frags) := by
  intro groups
  induction groups with
  | nil =>
    intro kw buf
    simp [appendLoop, newGroups, renderGroups]
  | cons g rest ih =>
    intro kw buf
    obtain ⟨sig, exs⟩ := g
    by_cases hk : hasKeyB fmtCli sig = true
    · have hng : newGroups fmtCli ((sig, exs) :: rest) = newGroups fmtCli rest := by
        simp [newGroups, hk]
      rw [appendLoop_cons_skip _ _ _ _ _ _ _ _ _ _ _ hk, hng, ih kw buf]
    · have hng : newGroups fmtCli ((sig, exs) :: rest) =
          (sig, exs) :: newGroups fmtCli rest := by
        simp [newGroups, hk]
      rw [appendLoop_cons_new _ _ _ _ _ _ _ _ _ _ _ hk, hng, renderGroups_cons]
      cases hw : writeExamplesAll cmd inner exs with
      | error e => rfl
      | ok f =>
        dsimp only
        rw [ih]
        cases hr : renderGroups cmd inner (newGroups fmtCli rest) with
        | error e => rfl
        | ok r =>
          dsimp only
          by_cases hcond : kw = false ∧ alNe = true ∧ cliEm = true
          · obtain ⟨h1, h2, h3⟩ := hcond
            subst h1
            simp [h2, h3, List.append_assoc]
          · have hc1 : ¬(kw = false ∧ alNe = true ∧ cliEm = true ∧
                ((sig, exs) :: newGroups fmtCli rest : Groups) ≠ []) := by
              intro hx
              exact hcond ⟨hx.1, hx.2.1, hx.2.2.1⟩
            have hc2 : ¬((if kw = false ∧ alNe = true ∧ cliEm = true then true else kw) = false ∧
                alNe = true ∧ cliEm = true ∧ newGroups fmtCli rest ≠ []) := by
              rw [if_neg hcond]
              intro hx
              exact hcond ⟨hx.1, hx.2.1, hx.2.2.1⟩
            simp only [if_neg hcond, if_neg hc1, if_neg hc2]
            simp [List.append_assoc]
            intro h1 h2 h3
            exact absurd ⟨h1, h2, h3⟩ hcond

theorem mergeExamples_ok_shape (cmd : List Char) (raw : List (List Char))
    (cli : Option (List ExampleRecord)) (alExs : List ExampleRecord)
    (buffer out : List (List Char))
    (h : mergeExamples cmd raw cli (some alExs) buffer = .ok out) :
    ∃ fc fa preceding inner frags,
      formatExamples cmd (cliListOf cli) = .ok fc ∧
      formatExamples cmd alExs = .ok fa ∧
      calculateIndent raw = some (preceding, inner) ∧
      renderGroups cmd inner (newGroups fc fa) = .ok frags ∧
      out = buffer ++
        (if newGroups fc fa ≠ [] ∧ fa ≠ [] ∧ fc = []
         then [preceding ++ s2l "examples:\n"] else []) ++ frags := by
  rw [mergeExamples_eq] at h
  cases hc : formatExamples cmd (cliListOf cli) with
  | error e => rw [hc] at h; exact absurd h (by simp)
  | ok fc =>
    rw [hc] at h
    dsimp only at h
    cases ha : formatExamples cmd alExs with
    | error e => rw [ha] at h; exact absurd h (by simp)
    | ok fa =>
      rw [ha] at h
      dsimp only at h
      cases hi : calculateIndent raw with
      | none => rw [hi] at h; exact absurd h (by simp)
      | some pr =>
        obtain ⟨preceding, inner⟩ := pr
        rw [hi] at h
        dsimp only at h
        rw [appendLoop_eq] at h
        cases hr : renderGroups cmd inner (newGroups fc fa) with
        | error e => rw [hr] at h; exact absurd h (by simp)
        | ok frags =>
          rw [hr] at h
          dsimp only at h
          refine ⟨fc, fa, preceding, inner, frags, rfl, rfl, rfl, hr, ?_⟩
          have hcond : (false = false ∧ (decide (fa ≠ []) = true) ∧
              (decide (fc = []) = true) ∧ newGroups fc fa ≠ []) ↔
              (newGroups fc fa ≠ [] ∧ fa ≠ [] ∧ fc = []) := by
            simp [decide_eq_true_iff]
            tauto
          rw [if_congr hcond rfl rfl] at h
          exact (Except.ok.inj h).symm

/-- C2: for every generated group whose ParameterSignature is already a key
of the CLI grouping, `merge_examples` emits nothing — the appended text is
exactly the rendering of `newGroups`, the generated groups whose signature
is not present — and, the keys of the generated grouping being distinct by
construction, at most one group of examples is emitted per distinct
signature. -/
theorem C2_merge_dedup (cmd : List Char) (raw : List (List Char))
    (cli : Option (List ExampleRecord)) (alExs : List ExampleRecord)
    (buffer out : List (List Char))
    (h : mergeExamples cmd raw cli (some alExs) buffer = .ok out) :
    ∃ fc fa preceding inner frags,
      formatExamples cmd (cliListOf cli) = .ok fc ∧
      formatExamples cmd alExs = .ok fa ∧
      (∀ p ∈ fa, hasKeyB fc p.1 = true → p ∉ newGroups fc fa) ∧
      ((newGroups fc fa).map Prod.fst).Nodup ∧
      renderGroups cmd inner (newGroups fc fa) = .ok frags ∧
      out = buffer ++
        (if newGroups fc fa ≠ [] ∧ fa ≠ [] ∧ fc = []
         then [preceding ++ s2l "examples:\n"] else []) ++ frags := by
  obtain ⟨fc, fa, preceding, inner, frags, hc, ha, hi, hr, hout⟩ :=
    mergeExamples_ok_shape cmd raw cli alExs buffer out h
  refine ⟨fc, fa, preceding, inner, frags, hc, ha, ?_, ?_, hr, hout⟩
  · intro p hp hkey hmem
    unfold newGroups at hmem
    rw [List.mem_filter] at hmem
    rw [hkey] at hmem
    simp at hmem
  · have hfa : ((fa : Groups).map Prod.fst).Nodup :=
      formatAux_keys_nodup cmd alExs [] fa (by simp) ha
    exact ((List.filter_sublist fa).map Prod.fst).nodup hfa

/-- Witness for `C2_merge_dedup` at a concrete merge with one duplicate and
one new group. -/
theorem C2_merge_dedup_witness :
    ∃ fc fa preceding inner frags,
      formatExamples (s2l "vm create")
        (cliListOf (some [⟨s2l "c1", s2l "az vm create --name x", false⟩])) = .ok fc ∧
      formatExamples (s2l "vm create")
        [⟨s2l "a1", s2l "az vm create --name y", false⟩,
         ⟨s2l "a2", s2l "az vm create --loc z", false⟩] = .ok fa ∧
      (∀ p ∈ fa, hasKeyB fc p.1 = true → p ∉ newGroups fc fa) ∧
      ((newGroups fc fa).map Prod.fst).Nodup ∧
      renderGroups (s2l "vm create") inner (newGroups fc fa) = .ok frags ∧
      [s2l "  - name: a2\n", s2l "    text: |\n", s2l "        az vm create",
       s2l " --loc z", s2l "\n"] = [] ++
        (if newGroups fc fa ≠ [] ∧ fa ≠ [] ∧ fc = []
         then [preceding ++ s2l "examples:\n"] else []) ++ frags :=
  C2_merge_dedup (s2l "vm create") [s2l "type: command\n", s2l "  short-summary: x\n"]
    (some [⟨s2l "c1", s2l "az vm create --name x", false⟩])
    [⟨s2l "a1", s2l "az vm create --name y", false⟩,
     ⟨s2l "a2", s2l "az vm create --loc z", false⟩]
    []
    [s2l "  - name: a2\n", s2l "    text: |\n", s2l "        az vm create",
     s2l " --loc z", s2l "\n"]
    (by decide)

/-! Claim C1: idempotence of the merge. -/

theorem flatten_splitAfterNL (x : List Char) : (splitAfterNL x).flatten = x := by
  induction x with
  | nil => rfl
  | cons c cs ih =>
    unfold splitAfterNL
    by_cases hc : c = '\n'
    · subst hc; simp [ih]
    · simp only [hc, if_false]
      cases h : splitAfterNL cs with
      | nil =>
        rw [h] at ih
        simp at ih
        simp [← ih]
      | cons t ts =>
        rw [h] at ih
        simp at ih ⊢
        exact ih

theorem formatAux_sigs_ok (cmd : List Char) :
    ∀ (exs : List ExampleRecord) (m g : Groups),
      formatExamplesAux cmd exs m = .ok g →
      ∀ e ∈ exs, ∃ s, exampleSig cmd e.text = .ok s := by
  intro exs
  induction exs with
  | nil => intro m g _ e hmem; simp at hmem
  | cons x xs ih =>
    intro m g h e hmem
    unfold formatExamplesAux at h
    cases hx : exampleSig cmd x.text with
    | error e2 => rw [hx] at h; exact absurd h (by simp)
    | ok s =>
      rw [hx] at h
      rcases List.mem_cons.mp hmem with hm | hm
      · exact ⟨s, hm ▸ hx⟩
      · exact ih (addToGroup m s x) g h e hm

theorem formatAux_ok_of (cmd : List Char) :
    ∀ (exs : List ExampleRecord),
      (∀ e ∈ exs, ∃ s, exampleSig cmd e.text = .ok s) →
      ∀ m, ∃ g, formatExamplesAux cmd exs m = .ok g := by
  intro exs
  induction exs with
  | nil => intro _ m; exact ⟨m, rfl⟩
  | cons x xs ih =>
    intro hall m
    obtain ⟨s, hs⟩ := hall x (List.mem_cons_self x xs)
    obtain ⟨g, hg⟩ := ih (fun e he => hall e (List.mem_cons_of_mem x he)) (addToGroup m s x)
    refine ⟨g, ?_⟩
    unfold formatExamplesAux
    rw [hs]
    exact hg

theorem mem_newRecs (fc fa : Groups) (e : ExampleRecord) :
    e ∈ ((newGroups fc fa).map Prod.snd).flatten ↔ ∃ p ∈ newGroups fc fa, e ∈ p.2 := by
  rw [List.mem_flatten]
  constructor
  · rintro ⟨l, hl, hel⟩
    rw [List.mem_map] at hl
    obtain ⟨p, hp, hpl⟩ := hl
    exact ⟨p, hp, hpl ▸ hel⟩
  · rintro ⟨p, hp, hep⟩
    exact ⟨p.2, List.mem_map.mpr ⟨p, hp, rfl⟩, hep⟩

theorem coverage_append (cmd : List Char) (cli al : List ExampleRecord) (fc fa fc2 : Groups)
    (hc : formatExamples cmd cli = .ok fc)
    (ha : formatExamples cmd al = .ok fa)
    (hc2 : formatExamples cmd (cli ++ ((newGroups fc fa).map Prod.snd).flatten) = .ok fc2) :
    ∀ p ∈ fa, hasKeyB fc2 p.1 = true := by
  intro p hp
  have hs : p.1 ∈ fa.map Prod.fst := List.mem_map.mpr ⟨p, hp, rfl⟩
  have hsal : ∃ e ∈ al, exampleSig cmd e.text = .ok p.1 := by
    have := (formatAux_mem_keys cmd al [] fa ha p.1).mp hs
    simpa using this
  rw [hasKeyB_iff]
  rw [formatAux_mem_keys cmd _ [] fc2 hc2 p.1]
  by_cases hk : hasKeyB fc p.1 = true
  · rw [hasKeyB_iff] at hk
    have := (formatAux_mem_keys cmd cli [] fc hc p.1).mp hk
    simp at this
    obtain ⟨e1, he1, hs1⟩ := this
    exact Or.inr ⟨e1, List.mem_append_left _ he1, hs1⟩
  · have hpn : p ∈ newGroups fc fa := by
      unfold newGroups
      rw [List.mem_filter]
      refine ⟨hp, ?_⟩
      simp [Bool.not_eq_true] at hk
      simp [hk]
    have hne : p.2 ≠ [] :=
      formatAux_vals_nonempty cmd al [] fa (by simp) ha p hp
    obtain ⟨e2, he2⟩ := List.exists_mem_of_ne_nil p.2 hne
    have hsig : exampleSig cmd e2.text = .ok p.1 :=
      formatAux_wf cmd al [] fa (by intro q hq; simp at hq) ha p hp e2 he2
    refine Or.inr ⟨e2, List.mem_append_right _ ((mem_newRecs fc fa e2).mpr ⟨p, hpn, he2⟩), hsig⟩

theorem coverage_empty (cmd : List Char) (al : List ExampleRecord) (fc fa : Groups)
    (ha : formatExamples cmd al = .ok fa)
    (hng : ((newGroups fc fa).map Prod.snd).flatten = []) :
    ∀ p ∈ fa, hasKeyB fc p.1 = true := by
  intro p hp
  by_contra hk
  have hpn : p ∈ newGroups fc fa := by
    unfold newGroups
    rw [List.mem_filter]
    refine ⟨hp, ?_⟩
    simp [Bool.not_eq_true] at hk
    simp [hk]
  have hne : p.2 ≠ [] :=
    formatAux_vals_nonempty cmd al [] fa (by simp) ha p hp
  obtain ⟨e, he⟩ := List.exists_mem_of_ne_nil p.2 hne
  have : e ∈ ((newGroups fc fa).map Prod.snd).flatten :=
    (mem_newRecs fc fa e).mpr ⟨p, hpn, he⟩
  rw [hng] at this
  simp at this

/-- Does every generated signature already occur among the existing
examples' signatures?  (The spec's "no generated example qualifies as
new".) -/
def allSigsPresent (cmd : List Char) (cliExs alExs : List ExampleRecord) : Bool :=
  match formatExamples cmd cliExs, formatExamples cmd alExs with
  | .ok fc, .ok fa => fa.all (fun p => hasKeyB fc p.1)
  | _, _ => false

theorem mergeExamples_no_append (cmd : List Char) (raw : List (List Char))
    (cliOpt : Option (List ExampleRecord)) (al : List ExampleRecord)
    (fc2 fa : Groups)
    (hc2 : formatExamples cmd (cliListOf cliOpt) = .ok fc2)
    (ha : formatExamples cmd al = .ok fa)
    (hng : newGroups fc2 fa = [])
    (hi : (calculateIndent raw).isSome = true) :
    mergeExamples cmd raw cliOpt (some al) [] = .ok [] := by
  rw [mergeExamples_eq, hc2]
  dsimp only
  rw [ha]
  dsimp only
  obtain ⟨pr, hpr⟩ := Option.isSome_iff_exists.mp hi
  obtain ⟨preceding, inner⟩ := pr
  rw [hpr]
  dsimp only
  rw [appendLoop_eq, hng]
  simp [renderGroups]

/-- C1: `Merge` on a help block is idempotent.  A second run of the merge
on the output block changes nothing, because every generated signature is
by then present among the block's examples; and when every generated
signature is already present in the input, the output block equals the
input block.  (`hlines` says the block's raw lines are genuine readline
results; `h2` says the written block still admits indent inference, which
`merge_examples` computes before its append loop.) -/
theorem C1_merge_idempotent (cmd : List Char) (b b' : HelpBlock)
    (gen : Option (List ExampleRecord))
    (hlines : splitAfterNL b.lines.flatten = b.lines)
    (h1 : mergeBlock cmd b gen = .ok b')
    (h2 : ∀ al, gen = some al → (calculateIndent b'.lines).isSome = true) :
    mergeBlock cmd b' gen = .ok b' ∧
    (∀ al, gen = some al →
      allSigsPresent cmd (cliListOf b.examples) al = true → b' = b) := by
  cases gen with
  | none =>
    unfold mergeBlock at h1 ⊢
    have hb' : (⟨splitAfterNL b.lines.flatten, b.examples⟩ : HelpBlock) = b' :=
      Except.ok.inj h1
    constructor
    · rw [← hb']
      rw [show (⟨splitAfterNL b.lines.flatten, b.examples⟩ : HelpBlock).lines =
            splitAfterNL b.lines.flatten from rfl,
          show (⟨splitAfterNL b.lines.flatten, b.examples⟩ : HelpBlock).examples =
            b.examples from rfl,
          flatten_splitAfterNL]
    · intro al hal
      exact absurd hal (by simp)
  | some al =>
    unfold mergeBlock at h1
    dsimp only at h1
    cases hme : mergeExamples cmd b.lines b.examples (some al) [] with
    | error e => rw [hme] at h1; exact absurd h1 (by simp)
    | ok frags =>
      rw [hme] at h1
      dsimp only at h1
      cases hfc : formatExamples cmd (cliListOf b.examples) with
      | error e => rw [hfc] at h1; exact absurd h1 (by simp)
      | ok fc =>
        rw [hfc] at h1
        cases hfa : formatExamples cmd al with
        | error e => rw [hfa] at h1; exact absurd h1 (by simp)
        | ok fa =>
          rw [hfa] at h1
          dsimp only at h1
          have hb' : b' = ⟨splitAfterNL (b.lines ++ frags).flatten,
              if ((newGroups fc fa).map Prod.snd).flatten = [] then b.examples
              else some (cliListOf b.examples ++ ((newGroups fc fa).map Prod.snd).flatten)⟩ :=
            (Except.ok.inj h1).symm
          -- a grouping for the second run's existing examples, covering all
          -- generated signatures
          have hwf : GroupsWf cmd fa :=
            formatAux_wf cmd al [] fa (by intro q hq; simp at hq) hfa
          have hex : ∃ fc2, formatExamples cmd (cliListOf b'.examples) = .ok fc2 ∧
              ∀ p ∈ fa, hasKeyB fc2 p.1 = true := by
            by_cases hnr : ((newGroups fc fa).map Prod.snd).flatten = []
            · refine ⟨fc, ?_, coverage_empty cmd al fc fa hfa hnr⟩
              rw [hb']
              simp only [hnr, if_pos rfl]
              exact hfc
            · have hexs : b'.examples =
                  some (cliListOf b.examples ++ ((newGroups fc fa).map Prod.snd).flatten) := by
                rw [hb']
                simp [hnr]
              have hall : ∀ e ∈ cliListOf b.examples ++ ((newGroups fc fa).map Prod.snd).flatten,
                  ∃ s, exampleSig cmd e.text = .ok s := by
                intro e he
                rcases List.mem_append.mp he with he | he
                · exact formatAux_sigs_ok cmd (cliListOf b.examples) [] fc hfc e he
                · obtain ⟨p, hp, hep⟩ := (mem_newRecs fc fa e).mp he
                  have hpfa : p ∈ fa := List.mem_of_mem_filter hp
                  exact ⟨p.1, hwf p hpfa e hep⟩
              obtain ⟨fc2, hfc2⟩ := formatAux_ok_of cmd _ hall []
              refine ⟨fc2, ?_, coverage_append cmd (cliListOf b.examples) al fc fa fc2 hfc hfa hfc2⟩
              rw [hexs]
              exact hfc2
          obtain ⟨fc2, hfc2, hcov⟩ := hex
          have hng2 : newGroups fc2 fa = [] := by
            unfold newGroups
            rw [List.filter_eq_nil_iff]
            intro p hp
            simp [hcov p hp]
          have hnoapp : mergeExamples cmd b'.lines b'.examples (some al) [] = .ok [] :=
            mergeExamples_no_append cmd b'.lines b'.examples al fc2 fa hfc2 hfa hng2
              (h2 al rfl)
          constructor
          · unfold mergeBlock
            dsimp only
            rw [hnoapp]
            dsimp only
            rw [hfc2, hfa]
            show Except.ok (⟨splitAfterNL (b'.lines ++ []).flatten,
                if ((newGroups fc2 fa).map Prod.snd).flatten = [] then b'.examples
                else some (cliListOf b'.examples ++ ((newGroups fc2 fa).map Prod.snd).flatten)⟩ :
                  HelpBlock) =
              Except.ok b'
            rw [hng2]
            rw [show ((List.map Prod.snd ([] : Groups)).flatten : List ExampleRecord) = []
              from rfl]
            rw [if_pos rfl, List.append_nil, hb']
            dsimp only
            rw [flatten_splitAfterNL]
          · intro al2 hal2 hsp
            have hal : al = al2 := Option.some.inj hal2
            rw [← hal] at hsp
            unfold allSigsPresent at hsp
            rw [hfc, hfa] at hsp
            dsimp only at hsp
            have hall : ∀ p ∈ fa, hasKeyB fc p.1 = true := List.all_eq_true.mp hsp
            have hng0 : newGroups fc fa = [] := by
              unfold newGroups
              rw [List.filter_eq_nil_iff]
              intro p hp
              simp [hall p hp]
            obtain ⟨fc0, fa0, pr0, in0, frags0, hfc0, hfa0, hi0, hr0, hout0⟩ :=
              mergeExamples_ok_shape cmd b.lines b.examples al [] frags hme
            have hfceq : fc0 = fc := Except.ok.inj (hfc0.symm.trans hfc)
            have hfaeq : fa0 = fa := Except.ok.inj (hfa0.symm.trans hfa)
            subst hfceq
            subst hfaeq
            rw [hng0] at hr0
            have hfr0 : frags0 = [] := (Except.ok.inj hr0.symm)
            subst hfr0
            rw [hng0] at hout0
            simp at hout0
            subst hout0
            rw [hng0] at hb'
            simp at hb'
            rw [hb', hlines]

/-- Witness for `C1_merge_idempotent`: a second merge of a concrete block
that gained one example leaves it unchanged. -/
theorem C1_merge_idempotent_witness :
    mergeBlock (s2l "vm create")
      (⟨[s2l "type: command\n", s2l "  - name: a2\n", s2l "    text: |\n",
         s2l "        az vm create --loc z\n"],
        some [⟨s2l "c1", s2l "az vm create --name x", false⟩,
              ⟨s2l "a2", s2l "az vm create --loc z", false⟩]⟩ : HelpBlock)
      (some [⟨s2l "a2", s2l "az vm create --loc z", false⟩]) =
    .ok (⟨[s2l "type: command\n", s2l "  - name: a2\n", s2l "    text: |\n",
           s2l "        az vm create --loc z\n"],
          some [⟨s2l "c1", s2l "az vm create --name x", false⟩,
                ⟨s2l "a2", s2l "az vm create --loc z", false⟩]⟩ : HelpBlock) :=
  (C1_merge_idempotent (s2l "vm create")
    (⟨[s2l "type: command\n"], some [⟨s2l "c1", s2l "az vm create --name x", false⟩]⟩ :
      HelpBlock)
    (⟨[s2l "type: command\n", s2l "  - name: a2\n", s2l "    text: |\n",
       s2l "        az vm create --loc z\n"],
      some [⟨s2l "c1", s2l "az vm create --name x", false⟩,
            ⟨s2l "a2", s2l "az vm create --loc z", false⟩]⟩ : HelpBlock)
    (some [⟨s2l "a2", s2l "az vm create --loc z", false⟩])
    (by decide) (by decide) (fun _ _ => by decide)).1
